import Mathlib

/-! dns-netprobe: the scan loop of `cmd/dns-netprobe/main.go`

A shallow embedding of the program's address enumeration
(`for ip := ip.Mask(ipnet.Mask); ipnet.Contains(ip); incrementIP(ip)`), of the
work unit started for every address, and of the semaphore / wait-group
discipline of `main`, followed by the properties proved about them.

Bytes are natural numbers below 256; a byte increment is `(b + 1) % 256`.
The functions of Go's `net` package that the loop calls (`IP.Mask`,
`IP.To4`, `CIDRMask`, `IPNet.Contains`) are embedded from the standard
library, since the loop's behaviour is decided by them.
-/

namespace DnsNetprobe

/-! ## Package `net`: addresses, masks, networks -/

/-- A `net.IP`: a slice of bytes (4 bytes for IPv4, 16 for IPv6). A nil slice
is the empty list. -/
abbrev IP := List Nat

/-- A `net.IPMask`: a slice of bytes. -/
abbrev IPMask := List Nat

/-- A `net.IPNet`: network number and mask. -/
structure IPNet where
  IP : IP
  Mask : IPMask
deriving DecidableEq, Repr

/-- Every element is a byte. -/
def IsBytes (ip : List Nat) : Prop := ∀ b ∈ ip, b < 256

instance (ip : List Nat) : Decidable (IsBytes ip) := by
  unfold IsBytes; infer_instance

/-- The 12 bytes `v4InV6Prefix` of package `net`: `0,...,0,0xff,0xff`. -/
def v4InV6Prefix : List Nat := [0, 0, 0, 0, 0, 0, 0, 0, 0, 0, 255, 255]

/-- `isZeros` of package `net`. -/
def isZeros (p : List Nat) : Bool := p.all (fun b => b == 0)

/-- `allFF` of package `net`. -/
def allFF (b : List Nat) : Bool := b.all (fun c => c == 255)

/-- `IP.To4`: the 4-byte form of an IPv4 address (a 4-byte slice, or a 16-byte
slice that is IPv4-mapped, `::ffff:a.b.c.d`), `none` for Go's nil. -/
def To4 (ip : IP) : Option IP :=
  if ip.length = 4 then some ip
  else if ip.length = 16 && isZeros (ip.take 10) && ip.getD 10 0 == 255 && ip.getD 11 0 == 255 then
    some (ip.drop 12)
  else none

/-- The loop `out[i] = ip[i] & mask[i]` of `IP.Mask`. -/
def andBytes (ip : IP) (mask : IPMask) : IP := List.zipWith (fun a k => a &&& k) ip mask

/-- `IP.Mask`: the address masked byte by byte; a 16-byte IPv4-mapped address
under a 4-byte mask is first cut to its 4-byte form (and a 16-byte mask that
starts with twelve `0xff` is cut for a 4-byte address). Nil (`[]`) when the
lengths do not agree. -/
def Mask (ip : IP) (mask : IPMask) : IP :=
  let mask1 := if mask.length = 16 && ip.length = 4 && allFF (mask.take 12) then mask.drop 12 else mask
  let ip1 := if mask1.length = 4 && ip.length = 16 && ip.take 12 == v4InV6Prefix then ip.drop 12 else ip
  if ip1.length ≠ mask1.length then [] else andBytes ip1 mask1

/-- The loop of `CIDRMask`: the bytes still to fill, and the ones still to
place. `^byte(0xff >> n)` is `255 - 255 >>> n`. -/
def cidrMaskLoop : Nat → Nat → IPMask
  | 0, _ => []
  | l + 1, n =>
    if 8 ≤ n then 255 :: cidrMaskLoop l (n - 8)
    else (255 - 255 >>> n) :: cidrMaskLoop l 0

/-- `CIDRMask ones bits`: the mask of `bits` bits with `ones` leading ones;
nil unless `bits` is 32 or 128 and `ones ≤ bits`. -/
def CIDRMask (ones bits : Nat) : IPMask :=
  if bits ≠ 32 ∧ bits ≠ 128 then []
  else if bits < ones then []
  else cidrMaskLoop (bits / 8) ones

/-- `net.ParseCIDR` after the text has been read: `addr` are the address bytes
written in the CIDR string (4 bytes for dotted IPv4 text, 16 for IPv6 text) and
`n` the prefix length. The pair returned is the address in 16-byte form and the
network `IPNet{IP: ip.Mask(m), Mask: m}`; `none` is the parse error on which
`main` stops with `log.Fatalf`. -/
def ParseCIDR (addr : IP) (n : Nat) : Option (IP × IPNet) :=
  if addr.length ≠ 4 ∧ addr.length ≠ 16 then none
  else if 8 * addr.length < n then none
  else
    let m := CIDRMask n (8 * addr.length)
    let addr16 := if addr.length = 4 then v4InV6Prefix ++ addr else addr
    some (addr16, { IP := Mask addr16 m, Mask := m })

/-- `networkNumberAndMask` of package `net`: the network number in 4-byte form
when it is an IPv4 address, with the mask cut to the same length. -/
def networkNumberAndMask (n : IPNet) : IP × IPMask :=
  let ip? : Option IP :=
    match To4 n.IP with
    | some x => some x
    | none => if n.IP.length ≠ 16 then none else some n.IP
  match ip? with
  | none => ([], [])
  | some ip =>
    if n.Mask.length = 4 then
      if ip.length ≠ 4 then ([], []) else (ip, n.Mask)
    else if n.Mask.length = 16 then
      if ip.length = 4 then (ip, n.Mask.drop 12) else (ip, n.Mask)
    else ([], [])

/-- The comparison loop of `IPNet.Contains`:
`nn[i]&m[i] != ip[i]&m[i]` for no `i`. -/
def sameMasked : IP → IPMask → IP → Bool
  | a :: nn, k :: m, b :: ip => (a &&& k == b &&& k) && sameMasked nn m ip
  | _, _, _ => true

/-- `IPNet.Contains`: the address is first brought to 4-byte form when
`To4` gives one; addresses whose length then differs from the network
number's are not contained. -/
def Contains (n : IPNet) (ip : IP) : Bool :=
  let nm := networkNumberAndMask n
  let ip1 := match To4 ip with
    | some x => x
    | none => ip
  if ip1.length ≠ nm.1.length then false
  else sameMasked nm.1 nm.2 ip1

/-! ## `incrementIP` and the scan loop -/

/-- The loop of `incrementIP`, `for i := len(ip) - 1; i >= 0; i--`: the
argument `k` is `i + 1`. `ip[i]++` on a byte, then `break` when the byte is
not zero. -/
def incrementIPLoop (ip : IP) : Nat → IP
  | 0 => ip
  | i + 1 =>
    let ip1 := ip.set i ((ip.getD i 0 + 1) % 256)
    if ip1.getD i 0 ≠ 0 then ip1 else incrementIPLoop ip1 i

/-- `incrementIP(ip)`: the slice after the call. -/
def incrementIP (ip : IP) : IP := incrementIPLoop ip ip.length

/-- The scan loop of `main`,
`for ip := start; ipnet.Contains(ip); incrementIP(ip) { body(copy of ip) }`:
the addresses handed to the body, in order, or `none` when `fuel` iterations
do not reach a failing guard. -/
def scanLoop (net : IPNet) : Nat → IP → Option (List IP)
  | 0, _ => none
  | fuel + 1, ip =>
    if Contains net ip then (scanLoop net fuel (incrementIP ip)).map (fun l => ip :: l)
    else some []

/-- The addresses scanned for the CIDR `addr/n` with `fuel` iterations:
`ParseCIDR`, then the loop from `ip.Mask(ipnet.Mask)`. -/
def scan (addr : IP) (n : Nat) (fuel : Nat) : Option (List IP) :=
  match ParseCIDR addr n with
  | none => none
  | some (ip, net) => scanLoop net fuel (Mask ip net.Mask)

/-- The big-endian integer value of a byte sequence. -/
def value (ip : List Nat) : Nat := ip.foldl (fun acc b => acc * 256 + b) 0

/-- The all-zero 16-byte address `::`. -/
def zero16 : IP := [0, 0, 0, 0, 0, 0, 0, 0, 0, 0, 0, 0, 0, 0, 0, 0]

/-- The address `::1:0:0:0`, the first one above the IPv4-mapped block. -/
def aboveMapped : IP := [0, 0, 0, 0, 0, 0, 0, 0, 0, 1, 0, 0, 0, 0, 0, 0]

/-! ## The work unit: `performDnsQuery` and the goroutine body -/

/-- The row type `DnsQuery` of `main.go`; the time stamp is the reading of the
clock at the insert. -/
structure DnsQuery where
  Timestamp : Nat
  Ip : String
  Domain : String
  Query : String
  Answer : String
deriving DecidableEq, Repr

/-- A `dns.Question`. -/
structure Question where
  Name : String
  Qtype : Nat
  Qclass : Nat
deriving DecidableEq, Repr

/-- `dns.TypeA`. -/
def TypeA : Nat := 1

/-- `dns.ClassINET`. -/
def ClassINET : Nat := 1

/-- The entry of the table `dns.TypeToString` for the one query type the
program uses (`TypeA`); a type missing from a Go map reads as the empty
string. -/
def TypeToString (t : Nat) : String := if t = TypeA then "A" else ""

/-- A `dns.RR`, represented by the text its `String()` method returns. -/
abbrev RR := String

/-- The number of bytes of a character in a Go string (UTF-8). Strings are
sequences of characters, that is Go strings that hold valid UTF-8; lengths and
indices that Go takes in bytes are computed from these widths. -/
def utf8Width (c : Char) : Nat :=
  if c.toNat < 128 then 1 else if c.toNat < 2048 then 2 else if c.toNat < 65536 then 3 else 4

/-- `dns.IsFqdn` of `github.com/miekg/dns`, on the bytes of the name as Go
counts them. The name must end in a dot; without the dot, when it does not end
in a backslash the name is fully qualified; else
`i := strings.LastIndexFunc(s, r != backslash)` is the byte index at which the
last rune that is no backslash starts (`-1` when there is none), and the result
is `(len(s)-i)%2 != 0`: `len(s)-i` is the width of that rune plus the number of
backslashes after it. -/
def IsFqdn (s : String) : Bool :=
  match s.data.reverse with
  | [] => false
  | c :: rest =>
    if c ≠ Char.ofNat 46 then false
    else match rest with
      | [] => true
      | d :: _ =>
        if d ≠ Char.ofNat 92 then true
        else
          match rest.dropWhile (fun x => x == Char.ofNat 92) with
          | [] => ((rest.takeWhile (fun x => x == Char.ofNat 92)).length + 1) % 2 ≠ 0
          | r :: _ =>
            (utf8Width r + (rest.takeWhile (fun x => x == Char.ofNat 92)).length) % 2 ≠ 0

/-- `dns.Fqdn`: the name itself when it is fully qualified, else the name
followed by a dot. -/
def Fqdn (s : String) : String := if IsFqdn s then s else s ++ "."

/-- `msg.SetQuestion(z, t)`: the question section of the message, one question
of class `ClassINET`. -/
def SetQuestion (z : String) (t : Nat) : List Question := [{ Name := z, Qtype := t, Qclass := ClassINET }]

/-- `dnsQuestionToString` of `main.go`: `fmt.Sprintf("%s %s", q.Name, dns.TypeToString[q.Qtype])`. -/
def dnsQuestionToString (q : Question) : String := q.Name ++ " " ++ TypeToString q.Qtype

/-- `dnsRRToString` of `main.go`: every record's text followed by a newline. -/
def dnsRRToString (rr : List RR) : String := rr.foldl (fun sb r => sb ++ (r ++ "\n")) ""

/-- `strings.Split(s, sep)` for a one-character separator, on the characters of
`s`: the pieces between the separators, empty pieces included. -/
def splitChars (sep : Char) : List Char → List (List Char)
  | [] => [[]]
  | c :: cs =>
    if c = sep then [] :: splitChars sep cs
    else match splitChars sep cs with
      | [] => [[c]]
      | w :: ws => (c :: w) :: ws

/-- `strings.Split(s, ",")`. -/
def Split (s : String) (sep : Char) : List String := (splitChars sep s.data).map String.mk

/-- `net.JoinHostPort(host, port)`: brackets around a host that has a colon. -/
def JoinHostPort (host port : String) : String :=
  if host.data.contains (Char.ofNat 58) then "[" ++ host ++ "]:" ++ port else host ++ ":" ++ port

/-- The collaborators of the scan that are not part of the program: the DNS
client (`client.Exchange`: the answer section of the response, or `none` for an
error such as a timeout), the wall clock (`time.Now()`, the reading at the
`k`-th insert) and the text `ip.String()` gives for a slice that is not an IPv4
address. -/
structure Env where
  Exchange : Question → String → Option (List RR)
  now : Nat → Nat
  textOther : IP → String

/-- `ip.String()`: dotted decimal for an IPv4 address (4 bytes, or 16 bytes
IPv4-mapped), the environment's text otherwise. -/
def ipString (env : Env) (ip : IP) : String :=
  match To4 ip with
  | some [a, b, c, d] => toString a ++ "." ++ toString b ++ "." ++ toString c ++ "." ++ toString d
  | _ => env.textOther ip

/-- A call the program makes to a collaborator: an exchange with the DNS
client, or an execution of the prepared insert statement. -/
inductive Event where
  | exchange (q : Question) (address : String)
  | exec (row : DnsQuery)
deriving DecidableEq, Repr

/-- The calls made so far, in order, and the number of inserts (clock
readings) made so far. -/
structure World where
  trace : List Event
  clock : Nat
deriving DecidableEq, Repr

/-- The rows handed to `stmt.Exec`, in order. An error of `Exec` is only
logged by the program. -/
def World.rows (w : World) : List DnsQuery :=
  w.trace.filterMap (fun e => match e with
    | Event.exec row => some row
    | Event.exchange _ _ => none)

/-- The exchanges made, in order. -/
def World.exchanges (w : World) : List (Question × String) :=
  w.trace.filterMap (fun e => match e with
    | Event.exec _ => none
    | Event.exchange q a => some (q, a))

/-- `performDnsQuery(client, stmt, ip, domain)`: one exchange for
`dns.Fqdn(domain)` with the server `ip:53`; on an error it returns, else it
executes the insert statement once. -/
def performDnsQuery (env : Env) (w : World) (ip : IP) (domain : String) : World :=
  let question := SetQuestion (Fqdn domain) TypeA
  let q0 := question.headD { Name := "", Qtype := 0, Qclass := 0 }
  let address := JoinHostPort (ipString env ip) "53"
  let w1 : World := { w with trace := w.trace ++ [Event.exchange q0 address] }
  match env.Exchange q0 address with
  | none => w1
  | some respAnswer =>
    let query := dnsQuestionToString q0
    let answer := dnsRRToString respAnswer
    { trace := w1.trace ++ [Event.exec
        { Timestamp := env.now w1.clock, Ip := ipString env ip, Domain := domain,
          Query := query, Answer := answer }],
      clock := w1.clock + 1 }

/-- The command-line flags `main` reads, the network as `ParseCIDR` reads its
text (address bytes and prefix length). `concurrent` is the capacity of the
channel `semaphore`; a negative `-concurrent` makes `make` fail before the loop
and is not in the model. -/
structure Flags where
  domain : String
  domains : String
  addr : IP
  bits : Nat
  concurrent : Nat

/-- The body of the goroutine started for `ip` (without its deferred calls):
the query for the primary domain, then, when `-domains` is not empty, one query
for each piece of `strings.Split(*domains, ",")`. -/
def worker (env : Env) (f : Flags) (w : World) (ip : IP) : World :=
  let w1 := performDnsQuery env w ip f.domain
  if f.domains ≠ "" then
    (Split f.domains (Char.ofNat 44)).foldl (fun acc additionalDomain => performDnsQuery env acc ip additionalDomain) w1
  else w1

/-- The domains a goroutine queries, in the order of its calls of
`performDnsQuery`. -/
def unitDomains (f : Flags) : List String :=
  f.domain :: (if f.domains ≠ "" then Split f.domains (Char.ofNat 44) else [])

/-! ## `main`: the loop, the semaphore and the wait group -/

/-- Where `main` stands: before the loop guard `ipnet.Contains(ip)`; after
`wg.Add(1)`, at the send `semaphore <- struct{}{}`; after the send, at the `go`
statement; at `wg.Wait()`; after `wg.Wait()` has returned. -/
inductive MainPc where
  | loopHead (ip : IP)
  | acquire (ip : IP)
  | spawn (ip : IP)
  | wait
  | exited
deriving DecidableEq, Repr

/-- Where a goroutine stands: `run k` after `k` calls of `performDnsQuery`
(with all calls made it is at its deferred receive `<-semaphore`); `released`
after the receive, at the deferred `wg.Done()`; `finished` after it. -/
inductive UnitPc where
  | run (k : Nat)
  | released
  | finished
deriving DecidableEq, Repr

/-- A goroutine: its own copy of the address (`append(ip[:0:0], ip...)`), its
position, and the number of receives `<-semaphore` it has made. -/
structure UnitState where
  ip : IP
  pc : UnitPc
  receives : Nat
deriving DecidableEq, Repr

/-- The state of the run: the network, the position of `main` (with the loop
variable `ip`), the counter of the wait group, the number of tokens in the
channel `semaphore`, the goroutines in the order they were started, and the
calls made to the collaborators. -/
structure State where
  ipnet : IPNet
  main : MainPc
  wg : Nat
  sem : Nat
  units : List UnitState
  world : World
deriving DecidableEq, Repr

/-- The state when the loop is entered: `ParseCIDR` succeeded (else `main`
stops with `log.Fatalf`, as it does when the database cannot be opened or the
statement cannot be prepared), the loop variable is `ip.Mask(ipnet.Mask)`, the
wait group and the channel are empty. -/
def init (f : Flags) : Option State :=
  match ParseCIDR f.addr f.bits with
  | none => none
  | some (ip, ipnet) =>
    some { ipnet := ipnet, main := MainPc.loopHead (Mask ip ipnet.Mask), wg := 0, sem := 0,
           units := [], world := { trace := [], clock := 0 } }

/-- Who moves next. -/
inductive Action where
  | main
  | unit (i : Nat)
deriving DecidableEq, Repr

/-- One step of `main`; `none` when it cannot move (the channel is full, the
wait-group counter is not zero, or it has returned). The send succeeds when
the channel of capacity `*goroutineLimit` is not full. -/
def stepMain (f : Flags) (s : State) : Option State :=
  match s.main with
  | MainPc.loopHead ip =>
    if Contains s.ipnet ip then some { s with main := MainPc.acquire ip, wg := s.wg + 1 }
    else some { s with main := MainPc.wait }
  | MainPc.acquire ip =>
    if s.sem < f.concurrent then some { s with main := MainPc.spawn ip, sem := s.sem + 1 }
    else none
  | MainPc.spawn ip =>
    some { s with main := MainPc.loopHead (incrementIP ip),
                  units := s.units ++ [{ ip := ip, pc := UnitPc.run 0, receives := 0 }] }
  | MainPc.wait => if s.wg = 0 then some { s with main := MainPc.exited } else none
  | MainPc.exited => none

/-- One step of goroutine `i`: its next call of `performDnsQuery`; then the
deferred receive from the channel (possible when a token is there); then the
deferred `wg.Done()`. -/
def stepUnit (env : Env) (f : Flags) (s : State) (i : Nat) : Option State :=
  match s.units[i]? with
  | none => none
  | some u =>
    match u.pc with
    | UnitPc.run k =>
      match (unitDomains f)[k]? with
      | some d =>
        some { s with units := s.units.set i { ip := u.ip, pc := UnitPc.run (k + 1), receives := u.receives },
                      world := performDnsQuery env s.world u.ip d }
      | none =>
        if 0 < s.sem then
          some { s with units := s.units.set i { ip := u.ip, pc := UnitPc.released, receives := u.receives + 1 },
                        sem := s.sem - 1 }
        else none
    | UnitPc.released =>
      some { s with units := s.units.set i { ip := u.ip, pc := UnitPc.finished, receives := u.receives },
                    wg := s.wg - 1 }
    | UnitPc.finished => none

/-- One step of the run under the scheduler's choice. -/
def step (env : Env) (f : Flags) (s : State) : Action → Option State
  | Action.main => stepMain f s
  | Action.unit i => stepUnit env f s i

/-- The states of the runs of the program. -/
inductive Reachable (env : Env) (f : Flags) : State → Prop where
  | init {s : State} : init f = some s → Reachable env f s
  | step {s t : State} (a : Action) : Reachable env f s → step env f s a = some t →
      Reachable env f t

/-- The goroutine holds a slot of the semaphore: it has not yet made its
deferred receive. -/
def holdsSlot (u : UnitState) : Bool :=
  match u.pc with
  | UnitPc.run _ => true
  | _ => false

/-- The goroutine has not yet called `wg.Done()`. -/
def unfinished (u : UnitState) : Bool :=
  match u.pc with
  | UnitPc.finished => false
  | _ => true

/-- The token `main` has sent for the goroutine it is about to start. -/
def mainSlot : MainPc → Nat
  | MainPc.spawn _ => 1
  | _ => 0

/-- The `wg.Add(1)` of `main` for the goroutine it has not started yet. -/
def mainAdded : MainPc → Nat
  | MainPc.acquire _ => 1
  | MainPc.spawn _ => 1
  | _ => 0

/-- The work units admitted through the gate (a token was sent for them) that
have not yet released their slot. -/
def admitted (s : State) : Nat := s.units.countP holdsSlot + mainSlot s.main

/-- The goroutines that are executing with their slot held. -/
def running (s : State) : Nat := s.units.countP holdsSlot

/-- The invariant of the semaphore and the wait group. -/
def Balanced (f : Flags) (s : State) : Prop :=
  s.sem = admitted s ∧ s.sem ≤ f.concurrent ∧
    s.wg = s.units.countP unfinished + mainAdded s.main ∧
    (s.main = MainPc.exited → ∀ u ∈ s.units, u.pc = UnitPc.finished)

/-- The per-goroutine invariant: a goroutine has made at most as many calls as
there are domains, and it has received from the semaphore never while it runs,
once afterwards. -/
def UnitOk (f : Flags) (u : UnitState) : Prop :=
  match u.pc with
  | UnitPc.run k => k ≤ (unitDomains f).length ∧ u.receives = 0
  | _ => u.receives = 1

/-- The invariant of the loop: the goroutines started so far hold the first
addresses of the enumeration from `start`, all of them contained in the
network, and the loop variable of `main` is the next one. -/
def Scanned (start : IP) (s : State) : Prop :=
  s.units.map (fun u => u.ip) = (List.range s.units.length).map (fun j => incrementIP^[j] start) ∧
    (∀ j < s.units.length, Contains s.ipnet (incrementIP^[j] start) = true) ∧
    match s.main with
    | MainPc.loopHead ip => ip = incrementIP^[s.units.length] start
    | MainPc.acquire ip =>
      ip = incrementIP^[s.units.length] start ∧ Contains s.ipnet ip = true
    | MainPc.spawn ip =>
      ip = incrementIP^[s.units.length] start ∧ Contains s.ipnet ip = true
    | MainPc.wait => Contains s.ipnet (incrementIP^[s.units.length] start) = false
    | MainPc.exited => Contains s.ipnet (incrementIP^[s.units.length] start) = false

/-! ## What a call of `performDnsQuery` adds -/

/-- A row without its time stamp. -/
def DnsQuery.core (r : DnsQuery) : DnsQuery := { r with Timestamp := 0 }

/-- An event without its time stamp. -/
def Event.core : Event → Event
  | Event.exchange q a => Event.exchange q a
  | Event.exec r => Event.exec r.core

/-- The question asked for a domain: its fully qualified name, type `A`. -/
def questionFor (d : String) : Question := { Name := Fqdn d, Qtype := TypeA, Qclass := ClassINET }

/-- The server address of the exchange: `ip:53`. -/
def serverOf (env : Env) (ip : IP) : String := JoinHostPort (ipString env ip) "53"

/-- The exchange for the domain at the address succeeds. -/
def succeeds (env : Env) (ip : IP) (d : String) : Bool :=
  (env.Exchange (questionFor d) (serverOf env ip)).isSome

/-- The row, without time stamp, recorded for an answered query. -/
def rowFor (env : Env) (ip : IP) (d : String) (answers : List RR) : DnsQuery :=
  { Timestamp := 0, Ip := ipString env ip, Domain := d,
    Query := Fqdn d ++ " " ++ "A", Answer := dnsRRToString answers }

/-- The rows, without time stamp, of one query: one row when the exchange
succeeds, none when it fails. -/
def rowsOf (env : Env) (ip : IP) (d : String) : List DnsQuery :=
  match env.Exchange (questionFor d) (serverOf env ip) with
  | some answers => [rowFor env ip d answers]
  | none => []

/-- The calls, without time stamp, of one query: the exchange, then the insert
when the exchange succeeds. -/
def eventsOf (env : Env) (ip : IP) (d : String) : List Event :=
  Event.exchange (questionFor d) (serverOf env ip) :: (rowsOf env ip d).map Event.exec

/-- The number of exchanges made so far that succeeded. -/
def World.successes (env : Env) (w : World) : Nat :=
  w.exchanges.countP (fun qa => (env.Exchange qa.1 qa.2).isSome)

/-- The number of calls of `performDnsQuery` a goroutine has made. -/
def progress (f : Flags) (u : UnitState) : Nat :=
  match u.pc with
  | UnitPc.run k => k
  | _ => (unitDomains f).length

/-- The rows, without time stamp, of the calls a goroutine has made. -/
def unitRows (env : Env) (f : Flags) (u : UnitState) : List DnsQuery :=
  ((unitDomains f).take (progress f u)).flatMap (fun d => rowsOf env u.ip d)

/-- The steps of the run, one case for each statement that can be executed. -/
inductive StepKind (env : Env) (f : Flags) (s : State) : State → Prop where
  | guardTrue (ip : IP) : s.main = MainPc.loopHead ip → Contains s.ipnet ip = true →
      StepKind env f s { s with main := MainPc.acquire ip, wg := s.wg + 1 }
  | guardFalse (ip : IP) : s.main = MainPc.loopHead ip → Contains s.ipnet ip = false →
      StepKind env f s { s with main := MainPc.wait }
  | send (ip : IP) : s.main = MainPc.acquire ip → s.sem < f.concurrent →
      StepKind env f s { s with main := MainPc.spawn ip, sem := s.sem + 1 }
  | go (ip : IP) : s.main = MainPc.spawn ip →
      StepKind env f s { s with main := MainPc.loopHead (incrementIP ip),
                                units := s.units ++ [{ ip := ip, pc := UnitPc.run 0, receives := 0 }] }
  | waited : s.main = MainPc.wait → s.wg = 0 → StepKind env f s { s with main := MainPc.exited }
  | query (i : Nat) (u : UnitState) (k : Nat) (d : String) : s.units[i]? = some u →
      u.pc = UnitPc.run k → (unitDomains f)[k]? = some d →
      StepKind env f s
        { s with units := s.units.set i { ip := u.ip, pc := UnitPc.run (k + 1), receives := u.receives },
                 world := performDnsQuery env s.world u.ip d }
  | receive (i : Nat) (u : UnitState) (k : Nat) : s.units[i]? = some u →
      u.pc = UnitPc.run k → (unitDomains f)[k]? = none → 0 < s.sem →
      StepKind env f s
        { s with units := s.units.set i { ip := u.ip, pc := UnitPc.released, receives := u.receives + 1 },
                 sem := s.sem - 1 }
  | done (i : Nat) (u : UnitState) : s.units[i]? = some u → u.pc = UnitPc.released →
      StepKind env f s
        { s with units := s.units.set i { ip := u.ip, pc := UnitPc.finished, receives := u.receives },
                 wg := s.wg - 1 }

/-- The steps a goroutine still has to take. -/
def unitWeight (f : Flags) (u : UnitState) : Nat :=
  match u.pc with
  | UnitPc.run k => ((unitDomains f).length - k) + 2
  | UnitPc.released => 1
  | UnitPc.finished => 0

/-- The steps `main` and the goroutines it will start still have to take, when
`N` addresses are to be scanned and `n` goroutines have been started. -/
def mainWeight (f : Flags) (N n : Nat) : MainPc → Nat
  | MainPc.loopHead _ => (N - n) * ((unitDomains f).length + 5) + 2
  | MainPc.acquire _ => (N - n) * ((unitDomains f).length + 5) + 1
  | MainPc.spawn _ => (N - n) * ((unitDomains f).length + 5)
  | MainPc.wait => 1
  | MainPc.exited => 0

/-- A bound on the number of steps the run can still take, when `N` addresses
are to be scanned. -/
def stepsLeft (f : Flags) (N : Nat) (s : State) : Nat :=
  mainWeight f N s.units.length s.main + (s.units.map (unitWeight f)).sum

/-- A DNS client that answers every exchange with the one record `1.2.3.4`. -/
def stubSucceeds (now : Nat → Nat) (textOther : IP → String) : Env :=
  { Exchange := fun _ _ => some ["1.2.3.4"], now := now, textOther := textOther }

/-- A DNS client for which every exchange times out. -/
def stubTimesOut (now : Nat → Nat) (textOther : IP → String) : Env :=
  { Exchange := fun _ _ => none, now := now, textOther := textOther }

/-- The flags of the end-to-end scenario: `-domain example.com -network
10.0.0.0/30 -concurrent 2`, with the additional domains given. -/
def scenario (domains : String) : Flags :=
  { domain := "example.com", domains := domains, addr := [10, 0, 0, 0], bits := 30,
    concurrent := 2 }

/-- The run under a given schedule: the actions taken one after the other;
`none` when one of them cannot be taken. -/
def runActions (env : Env) (f : Flags) : List Action → State → Option State
  | [], s => some s
  | a :: rest, s =>
    match step env f s a with
    | none => none
    | some t => runActions env f rest t

/-- The addresses of `10.0.0.0/30`. -/
def scenarioAddresses : List IP := [[10, 0, 0, 0], [10, 0, 0, 1], [10, 0, 0, 2], [10, 0, 0, 3]]

/-- The rows, without time stamp, of the scenario with a client that answers
`1.2.3.4`: the question text carries the fully qualified name. -/
def scenarioRows : List DnsQuery :=
  [{ Timestamp := 0, Ip := "10.0.0.0", Domain := "example.com", Query := "example.com. A",
     Answer := "1.2.3.4\n" },
   { Timestamp := 0, Ip := "10.0.0.1", Domain := "example.com", Query := "example.com. A",
     Answer := "1.2.3.4\n" },
   { Timestamp := 0, Ip := "10.0.0.2", Domain := "example.com", Query := "example.com. A",
     Answer := "1.2.3.4\n" },
   { Timestamp := 0, Ip := "10.0.0.3", Domain := "example.com", Query := "example.com. A",
     Answer := "1.2.3.4\n" }]

/-! ## Example runs of the scenario -/

/-- The answering client of the scenario, with a clock that counts the
inserts. -/
def answeringEnv : Env := stubSucceeds (fun k => k) (fun _ => "")

/-- The client of the scenario for which every exchange times out. -/
def failingEnv : Env := stubTimesOut (fun k => k) (fun _ => "")

/-- A schedule on which `main` starts two goroutines and reaches the send for
the third address. -/
def scheduleToLimit : List Action :=
  [Action.main, Action.main, Action.main, Action.main, Action.main, Action.main, Action.main]

/-- A schedule on which every goroutine runs to its end as soon as it is
started, and `main` then passes `wg.Wait()`. -/
def scheduleToExit : List Action :=
  [Action.main, Action.main, Action.main, Action.unit 0, Action.unit 0, Action.unit 0,
   Action.main, Action.main, Action.main, Action.unit 1, Action.unit 1, Action.unit 1,
   Action.main, Action.main, Action.main, Action.unit 2, Action.unit 2, Action.unit 2,
   Action.main, Action.main, Action.main, Action.unit 3, Action.unit 3, Action.unit 3,
   Action.main, Action.main]

/-- The state of the scenario when the loop is entered. -/
def scenarioStart : State :=
  { ipnet := { IP := [10, 0, 0, 0], Mask := [255, 255, 255, 252] },
    main := MainPc.loopHead [10, 0, 0, 0], wg := 0, sem := 0, units := [],
    world := { trace := [], clock := 0 } }

/-- The state of the scenario after `scheduleToLimit`: two goroutines hold the
two slots, `main` waits at the send for `10.0.0.2`. -/
def stateAtLimit : State :=
  { ipnet := { IP := [10, 0, 0, 0], Mask := [255, 255, 255, 252] },
    main := MainPc.acquire [10, 0, 0, 2], wg := 3, sem := 2,
    units := [{ ip := [10, 0, 0, 0], pc := UnitPc.run 0, receives := 0 },
              { ip := [10, 0, 0, 1], pc := UnitPc.run 0, receives := 0 }],
    world := { trace := [], clock := 0 } }

/-- The goroutines of the scenario when the run is over. -/
def finishedUnits : List UnitState :=
  [{ ip := [10, 0, 0, 0], pc := UnitPc.finished, receives := 1 },
   { ip := [10, 0, 0, 1], pc := UnitPc.finished, receives := 1 },
   { ip := [10, 0, 0, 2], pc := UnitPc.finished, receives := 1 },
   { ip := [10, 0, 0, 3], pc := UnitPc.finished, receives := 1 }]

/-- The question of the scenario. -/
def scenarioQuestion : Question := { Name := "example.com.", Qtype := 1, Qclass := 1 }

/-- The state of the scenario after `scheduleToExit` with the answering
client. -/
def stateAtExit : State :=
  { ipnet := { IP := [10, 0, 0, 0], Mask := [255, 255, 255, 252] },
    main := MainPc.exited, wg := 0, sem := 0, units := finishedUnits,
    world :=
      { trace :=
          [Event.exchange scenarioQuestion "10.0.0.0:53",
           Event.exec { Timestamp := 0, Ip := "10.0.0.0", Domain := "example.com",
                        Query := "example.com. A", Answer := "1.2.3.4\n" },
           Event.exchange scenarioQuestion "10.0.0.1:53",
           Event.exec { Timestamp := 1, Ip := "10.0.0.1", Domain := "example.com",
                        Query := "example.com. A", Answer := "1.2.3.4\n" },
           Event.exchange scenarioQuestion "10.0.0.2:53",
           Event.exec { Timestamp := 2, Ip := "10.0.0.2", Domain := "example.com",
                        Query := "example.com. A", Answer := "1.2.3.4\n" },
           Event.exchange scenarioQuestion "10.0.0.3:53",
           Event.exec { Timestamp := 3, Ip := "10.0.0.3", Domain := "example.com",
                        Query := "example.com. A", Answer := "1.2.3.4\n" }],
        clock := 4 } }

/-- The state of the scenario after `scheduleToExit` with the client that
times out. -/
def stateAtExitFailing : State :=
  { ipnet := { IP := [10, 0, 0, 0], Mask := [255, 255, 255, 252] },
    main := MainPc.exited, wg := 0, sem := 0, units := finishedUnits,
    world :=
      { trace :=
          [Event.exchange scenarioQuestion "10.0.0.0:53",
           Event.exchange scenarioQuestion "10.0.0.1:53",
           Event.exchange scenarioQuestion "10.0.0.2:53",
           Event.exchange scenarioQuestion "10.0.0.3:53"],
        clock := 0 } }

/-- The flags of a scan of the single address `255.255.255.255/32` with the
primary domain `example.com` and two slots. -/
def singleFlags : Flags :=
  { domain := "example.com", domains := "", addr := [255, 255, 255, 255], bits := 32,
    concurrent := 2 }

/-- The state of that scan when the loop is entered. -/
def singleStart : State :=
  { ipnet := { IP := [255, 255, 255, 255], Mask := [255, 255, 255, 255] },
    main := MainPc.loopHead [255, 255, 255, 255], wg := 0, sem := 0, units := [],
    world := { trace := [], clock := 0 } }

/-! # Lemmas and theorems -/

/-! ## Bytes and big-endian values -/

theorem foldl_value (xs : List Nat) (acc : Nat) :
    xs.foldl (fun acc b => acc * 256 + b) acc = acc * 256 ^ xs.length + value xs := by
  induction xs generalizing acc with
  | nil => simp [value]
  | cons a xs ih =>
    simp only [List.foldl_cons, List.length_cons, value]
    rw [ih, ih (0 * 256 + a)]
    ring

theorem value_nil : value [] = 0 := rfl

theorem value_cons (a : Nat) (xs : List Nat) :
    value (a :: xs) = a * 256 ^ xs.length + value xs := by
  simp only [value, List.foldl_cons]
  rw [foldl_value]
  simp [value]

theorem value_append (xs ys : List Nat) :
    value (xs ++ ys) = value xs * 256 ^ ys.length + value ys := by
  simp only [value, List.foldl_append]
  rw [foldl_value]
  simp [value]

theorem value_concat (xs : List Nat) (b : Nat) : value (xs ++ [b]) = value xs * 256 + b := by
  rw [value_append]
  simp [value]

theorem IsBytes.tail {a : Nat} {xs : List Nat} (h : IsBytes (a :: xs)) : IsBytes xs :=
  fun b hb => h b (List.mem_cons_of_mem _ hb)

theorem IsBytes.head {a : Nat} {xs : List Nat} (h : IsBytes (a :: xs)) : a < 256 :=
  h a (List.mem_cons_self _ _)

theorem isBytes_cons {a : Nat} {xs : List Nat} : IsBytes (a :: xs) ↔ a < 256 ∧ IsBytes xs := by
  simp [IsBytes]

theorem isBytes_append {xs ys : List Nat} : IsBytes (xs ++ ys) ↔ IsBytes xs ∧ IsBytes ys := by
  simp only [IsBytes, List.mem_append]
  constructor
  · intro h
    exact ⟨fun b hb => h b (Or.inl hb), fun b hb => h b (Or.inr hb)⟩
  · rintro ⟨h1, h2⟩ b (hb | hb)
    · exact h1 b hb
    · exact h2 b hb

theorem value_lt {xs : List Nat} (h : IsBytes xs) : value xs < 256 ^ xs.length := by
  induction xs with
  | nil => simp [value]
  | cons a xs ih =>
    rw [value_cons, List.length_cons, pow_succ]
    have ha := h.head
    have hx := ih h.tail
    nlinarith

theorem value_inj {xs ys : List Nat} (hx : IsBytes xs) (hy : IsBytes ys)
    (hl : xs.length = ys.length) (hv : value xs = value ys) : xs = ys := by
  induction xs generalizing ys with
  | nil =>
    cases ys with
    | nil => rfl
    | cons b ys => simp at hl
  | cons a xs ih =>
    cases ys with
    | nil => simp at hl
    | cons b ys =>
      simp only [List.length_cons, Nat.add_right_cancel_iff] at hl
      rw [value_cons, value_cons, hl] at hv
      have h1 := value_lt hx.tail
      have h2 := value_lt hy.tail
      rw [hl] at h1
      have hp : 0 < 256 ^ ys.length := by positivity
      have hab : a = b := by
        have e1 : (a * 256 ^ ys.length + value xs) / 256 ^ ys.length = a := by
          rw [Nat.add_comm, Nat.add_mul_div_right _ _ hp, Nat.div_eq_of_lt h1]; simp
        have e2 : (b * 256 ^ ys.length + value ys) / 256 ^ ys.length = b := by
          rw [Nat.add_comm, Nat.add_mul_div_right _ _ hp, Nat.div_eq_of_lt h2]; simp
        rw [← e1, ← e2, hv]
      subst hab
      have hv2 : value xs = value ys := by omega
      rw [ih hx.tail hy.tail hl hv2]

/-! ## `incrementIP` -/

theorem getD_append_mid (p suf : List Nat) (v : Nat) :
    (p ++ v :: suf).getD p.length 0 = v := by
  rw [List.getD_eq_getElem?_getD, List.getElem?_append_right (le_refl _)]
  simp

theorem set_append_mid (p suf : List Nat) (b v : Nat) :
    (p ++ b :: suf).set p.length v = p ++ v :: suf := by
  rw [List.set_append_right _ _ (le_refl _)]
  simp

theorem incrementIPLoop_succ (p suf : List Nat) (b : Nat) :
    incrementIPLoop (p ++ b :: suf) (p.length + 1) =
      if (b + 1) % 256 ≠ 0 then p ++ ((b + 1) % 256) :: suf
      else incrementIPLoop (p ++ 0 :: suf) p.length := by
  simp only [incrementIPLoop, getD_append_mid, set_append_mid]
  by_cases hz : (b + 1) % 256 = 0
  · simp [hz]
  · simp [hz]

theorem incrementIPLoop_append (i : Nat) :
    ∀ (pre suf : List Nat), pre.length = i →
      incrementIPLoop (pre ++ suf) i = incrementIPLoop pre i ++ suf := by
  induction i with
  | zero => intro pre suf _; simp [incrementIPLoop]
  | succ i ih =>
    intro pre suf hl
    rcases List.eq_nil_or_concat pre with h | ⟨p, b, h⟩
    · subst h; simp at hl
    · rw [List.concat_eq_append] at h
      subst h
      have hp : p.length = i := by simpa using hl
      subst hp
      have e1 : p ++ [b] ++ suf = p ++ b :: suf := by simp
      have e2 : p ++ [b] = p ++ b :: [] := rfl
      rw [e1, incrementIPLoop_succ, e2, incrementIPLoop_succ]
      by_cases hz : (b + 1) % 256 = 0
      · simp only [hz, ne_eq, not_true_eq_false, if_false]
        rw [ih p (0 :: suf) rfl, ih p [0] rfl]
        simp
      · simp [hz]

theorem incrementIP_nil : incrementIP [] = [] := rfl

theorem incrementIP_concat (p : List Nat) (b : Nat) :
    incrementIP (p ++ [b]) =
      if (b + 1) % 256 ≠ 0 then p ++ [(b + 1) % 256] else incrementIP p ++ [0] := by
  have hl : (p ++ [b]).length = p.length + 1 := by simp
  unfold incrementIP
  rw [hl, incrementIPLoop_succ p [] b]
  by_cases hz : (b + 1) % 256 = 0
  · simp only [hz, ne_eq, not_true_eq_false, if_false]
    exact incrementIPLoop_append p.length p [0] rfl
  · simp [hz]

theorem incrementIP_length (ip : List Nat) : (incrementIP ip).length = ip.length := by
  induction ip using List.reverseRecOn with
  | nil => rfl
  | append_singleton p b ih =>
    rw [incrementIP_concat]
    split <;> simp [ih]

theorem incrementIP_isBytes {ip : List Nat} (h : IsBytes ip) : IsBytes (incrementIP ip) := by
  induction ip using List.reverseRecOn with
  | nil => exact h
  | append_singleton p b ih =>
    rw [incrementIP_concat]
    have hp := (isBytes_append.1 h).1
    split
    · refine isBytes_append.2 ⟨hp, ?_⟩
      intro c hc
      simp only [List.mem_singleton] at hc
      subst hc
      exact Nat.mod_lt _ (by norm_num)
    · refine isBytes_append.2 ⟨ih hp, ?_⟩
      intro c hc
      simp only [List.mem_singleton] at hc
      subst hc
      norm_num

theorem incrementIP_value {ip : List Nat} (h : IsBytes ip) :
    value (incrementIP ip) = (value ip + 1) % 256 ^ ip.length := by
  induction ip using List.reverseRecOn with
  | nil => simp [incrementIP_nil, value]
  | append_singleton p b ih =>
    have hp := (isBytes_append.1 h).1
    have hb : b < 256 := (isBytes_append.1 h).2 b (List.mem_singleton_self b)
    have hv := value_lt hp
    rw [incrementIP_concat, value_concat]
    simp only [List.length_append, List.length_singleton, pow_succ]
    by_cases hz : (b + 1) % 256 = 0
    · have hb255 : b = 255 := by omega
      subst hb255
      simp only [hz, ne_eq, not_true_eq_false, if_false]
      rw [value_concat, ih hp]
      have : value p * 256 + 255 + 1 = (value p + 1) * 256 := by ring
      rw [this, Nat.mul_mod_mul_right, Nat.add_zero]
    · simp only [ne_eq, hz, not_false_eq_true, if_true]
      have hb2 : (b + 1) % 256 = b + 1 := by omega
      rw [value_concat, hb2, Nat.mod_eq_of_lt]
      · ring
      · have : value p + 1 ≤ 256 ^ p.length := hv
        have h3 : (value p + 1) * 256 ≤ 256 ^ p.length * 256 := Nat.mul_le_mul_right _ this
        omega

theorem incrementIP_carry (pre : List Nat) (c k : Nat) (hc : c < 255) :
    incrementIP (pre ++ c :: List.replicate k 255) = pre ++ (c + 1) :: List.replicate k 0 := by
  induction k with
  | zero =>
    have e : pre ++ c :: List.replicate 0 255 = pre ++ [c] := rfl
    have h1 : (c + 1) % 256 = c + 1 := by omega
    rw [e, incrementIP_concat, h1]
    simp
  | succ k ih =>
    have e : pre ++ c :: List.replicate (k + 1) 255 = (pre ++ c :: List.replicate k 255) ++ [255] := by
      rw [List.replicate_succ']; simp
    rw [e, incrementIP_concat, ih]
    simp [List.replicate_succ']

theorem incrementIP_allFF (k : Nat) :
    incrementIP (List.replicate k 255) = List.replicate k 0 := by
  induction k with
  | zero => rfl
  | succ k ih =>
    rw [List.replicate_succ', incrementIP_concat, ih]
    simp [List.replicate_succ']

theorem iterate_length (k : Nat) (ip : List Nat) : (incrementIP^[k] ip).length = ip.length := by
  induction k generalizing ip with
  | zero => rfl
  | succ k ih => rw [Function.iterate_succ_apply, ih, incrementIP_length]

theorem iterate_isBytes (k : Nat) {ip : List Nat} (h : IsBytes ip) : IsBytes (incrementIP^[k] ip) := by
  induction k generalizing ip with
  | zero => exact h
  | succ k ih => rw [Function.iterate_succ_apply]; exact ih (incrementIP_isBytes h)

theorem iterate_value (k : Nat) {ip : List Nat} (h : IsBytes ip) :
    value (incrementIP^[k] ip) = (value ip + k) % 256 ^ ip.length := by
  induction k with
  | zero => simp [Nat.mod_eq_of_lt (value_lt h)]
  | succ k ih =>
    rw [Function.iterate_succ_apply', incrementIP_value (iterate_isBytes k h), ih, iterate_length]
    rw [Nat.add_mod, Nat.mod_mod, ← Nat.add_mod]
    rfl

/-! ## Masks -/

set_option maxRecDepth 100000 in
theorem byte_and_ff : ∀ a < 256, a &&& 255 = a := by decide

set_option maxRecDepth 1000000 in
theorem byte_and_cidr : ∀ n < 8, ∀ a < 256,
    a &&& (255 - 255 >>> n) = a / 2 ^ (8 - n) * 2 ^ (8 - n) := by decide

theorem cidrMaskLoop_length (l n : Nat) : (cidrMaskLoop l n).length = l := by
  induction l generalizing n with
  | zero => rfl
  | succ l ih =>
    unfold cidrMaskLoop
    split <;> simp [ih]

theorem andBytes_length (x m : List Nat) (h : x.length = m.length) :
    (andBytes x m).length = x.length := by
  simp [andBytes, h]

theorem andBytes_isBytes {x : List Nat} (m : List Nat) (h : IsBytes x) : IsBytes (andBytes x m) := by
  induction x generalizing m with
  | nil => intro b hb; simp [andBytes] at hb
  | cons a xs ih =>
    cases m with
    | nil => intro b hb; simp [andBytes] at hb
    | cons k m =>
      have e : andBytes (a :: xs) (k :: m) = (a &&& k) :: andBytes xs m := rfl
      rw [e]
      exact isBytes_cons.2 ⟨lt_of_le_of_lt Nat.and_le_left h.head, ih m h.tail⟩

theorem pow256 (l : Nat) : (256 : Nat) ^ l = 2 ^ (8 * l) := by
  rw [show (256 : Nat) = 2 ^ 8 by norm_num, ← pow_mul]

theorem andBytes_cidr (l : Nat) :
    ∀ (n : Nat) (x : List Nat), x.length = l → IsBytes x → n ≤ 8 * l →
      value (andBytes x (cidrMaskLoop l n)) = value x / 2 ^ (8 * l - n) * 2 ^ (8 * l - n) := by
  induction l with
  | zero =>
    intro n x hl _ _
    have : x = [] := List.length_eq_zero.1 hl
    subst this
    simp [andBytes, cidrMaskLoop, value]
  | succ l ih =>
    intro n x hl hb hn
    cases x with
    | nil => simp at hl
    | cons a xs =>
      have hxl : xs.length = l := by simpa using hl
      have ha := hb.head
      have hxs := hb.tail
      have hvx := value_lt hxs
      rw [hxl] at hvx
      have hp : 0 < 256 ^ l := by positivity
      by_cases h8 : 8 ≤ n
      · have e : andBytes (a :: xs) (cidrMaskLoop (l + 1) n)
            = (a &&& 255) :: andBytes xs (cidrMaskLoop l (n - 8)) := by
          simp [cidrMaskLoop, h8, andBytes]
        have hlen : (andBytes xs (cidrMaskLoop l (n - 8))).length = l := by
          rw [andBytes_length _ _ (by rw [cidrMaskLoop_length, hxl]), hxl]
        rw [e, value_cons, value_cons, hlen, hxl, byte_and_ff a ha, ih (n - 8) xs hxl hxs (by omega)]
        have hh : 8 * l - (n - 8) = 8 * (l + 1) - n := by omega
        rw [hh]
        have hle : 8 * (l + 1) - n ≤ 8 * l := by omega
        generalize 8 * (l + 1) - n = h at hle ⊢
        have hq : 256 ^ l = 2 ^ (8 * l - h) * 2 ^ h := by
          rw [pow256, ← pow_add]; congr 1; omega
        have h2 : 0 < 2 ^ h := by positivity
        have hd : (a * 2 ^ (8 * l - h) * 2 ^ h + value xs) / 2 ^ h
            = a * 2 ^ (8 * l - h) + value xs / 2 ^ h := by
          rw [Nat.add_comm, Nat.add_mul_div_right _ _ h2, Nat.add_comm]
        rw [hq, ← Nat.mul_assoc, hd]
        ring
      · have hn8 : n < 8 := by omega
        have e : andBytes (a :: xs) (cidrMaskLoop (l + 1) n)
            = (a &&& (255 - 255 >>> n)) :: andBytes xs (cidrMaskLoop l 0) := by
          simp [cidrMaskLoop, h8, andBytes]
        have hlen : (andBytes xs (cidrMaskLoop l 0)).length = l := by
          rw [andBytes_length _ _ (by rw [cidrMaskLoop_length, hxl]), hxl]
        have hz : value (andBytes xs (cidrMaskLoop l 0)) = 0 := by
          rw [ih 0 xs hxl hxs (by omega), Nat.sub_zero, ← pow256, Nat.div_eq_of_lt hvx]
          simp
        rw [e, value_cons, value_cons, hlen, hxl, hz, byte_and_cidr n hn8 a ha]
        have hh : 8 * (l + 1) - n = 8 * l + (8 - n) := by omega
        rw [hh, pow_add, ← pow256]
        have hd : (a * 256 ^ l + value xs) / (256 ^ l * 2 ^ (8 - n)) = a / 2 ^ (8 - n) := by
          rw [← Nat.div_div_eq_div_mul, Nat.add_comm, Nat.add_mul_div_right _ _ hp,
            Nat.div_eq_of_lt hvx, Nat.zero_add]
        rw [hd]
        ring

theorem sameMasked_iff (x : List Nat) :
    ∀ (m y : List Nat), x.length = m.length → y.length = m.length →
      (sameMasked x m y = true ↔ andBytes x m = andBytes y m) := by
  induction x with
  | nil =>
    intro m y hx hy
    have hm : m = [] := List.length_eq_zero.1 hx.symm
    subst hm
    have : y = [] := List.length_eq_zero.1 hy
    subst this
    simp [sameMasked, andBytes]
  | cons a xs ih =>
    intro m y hx hy
    cases m with
    | nil => simp at hx
    | cons k m =>
      cases y with
      | nil => simp at hy
      | cons b ys =>
        have hx1 : xs.length = m.length := by simpa using hx
        have hy1 : ys.length = m.length := by simpa using hy
        have e1 : andBytes (a :: xs) (k :: m) = (a &&& k) :: andBytes xs m := rfl
        have e2 : andBytes (b :: ys) (k :: m) = (b &&& k) :: andBytes ys m := rfl
        rw [e1, e2]
        simp only [sameMasked, Bool.and_eq_true, beq_iff_eq, List.cons.injEq]
        rw [ih m ys hx1 hy1]

theorem sameMasked_cidr (l n : Nat) (x y : List Nat) (hx : x.length = l) (hy : y.length = l)
    (hbx : IsBytes x) (hby : IsBytes y) (hn : n ≤ 8 * l) :
    sameMasked x (cidrMaskLoop l n) y = true ↔
      value x / 2 ^ (8 * l - n) = value y / 2 ^ (8 * l - n) := by
  rw [sameMasked_iff x _ y (by rw [cidrMaskLoop_length, hx]) (by rw [cidrMaskLoop_length, hy])]
  have h2 : 0 < 2 ^ (8 * l - n) := by positivity
  constructor
  · intro h
    have hv := congrArg value h
    rw [andBytes_cidr l n x hx hbx hn, andBytes_cidr l n y hy hby hn] at hv
    exact Nat.eq_of_mul_eq_mul_right h2 hv
  · intro h
    apply value_inj (andBytes_isBytes _ hbx) (andBytes_isBytes _ hby)
    · rw [andBytes_length _ _ (by rw [cidrMaskLoop_length, hx]),
        andBytes_length _ _ (by rw [cidrMaskLoop_length, hy]), hx, hy]
    · rw [andBytes_cidr l n x hx hbx hn, andBytes_cidr l n y hy hby hn, h]

/-! ## `ParseCIDR`, `To4` and `Contains` in terms of values -/

theorem length_eq_four {a : List Nat} (hl : a.length = 4) :
    ∃ a0 a1 a2 a3, a = [a0, a1, a2, a3] := by
  rcases a with _ | ⟨a0, _ | ⟨a1, _ | ⟨a2, _ | ⟨a3, _ | ⟨z, zs⟩⟩⟩⟩⟩ <;> simp at hl
  exact ⟨a0, a1, a2, a3, rfl⟩

theorem length_eq_sixteen {a : List Nat} (hl : a.length = 16) :
    ∃ a0 a1 a2 a3 a4 a5 a6 a7 a8 a9 a10 a11 a12 a13 a14 a15,
      a = [a0, a1, a2, a3, a4, a5, a6, a7, a8, a9, a10, a11, a12, a13, a14, a15] := by
  rcases a with _ | ⟨a0, _ | ⟨a1, _ | ⟨a2, _ | ⟨a3, _ | ⟨a4, _ | ⟨a5, _ | ⟨a6, _ | ⟨a7, _ | ⟨a8, _ | ⟨a9, _ | ⟨a10, _ | ⟨a11, _ | ⟨a12, _ | ⟨a13, _ | ⟨a14, _ | ⟨a15, _ | ⟨z, zs⟩⟩⟩⟩⟩⟩⟩⟩⟩⟩⟩⟩⟩⟩⟩⟩⟩ <;> simp at hl
  exact ⟨a0, a1, a2, a3, a4, a5, a6, a7, a8, a9, a10, a11, a12, a13, a14, a15, rfl⟩

theorem To4_four {a : List Nat} (hl : a.length = 4) : To4 a = some a := by
  simp [To4, hl]

theorem To4_sixteen {a : List Nat} (hl : a.length = 16) :
    To4 a = if a.take 12 = v4InV6Prefix then some (a.drop 12) else none := by
  obtain ⟨a0, a1, a2, a3, a4, a5, a6, a7, a8, a9, a10, a11, a12, a13, a14, a15, rfl⟩ :=
    length_eq_sixteen hl
  simp only [To4, isZeros, v4InV6Prefix]
  by_cases h : [a0, a1, a2, a3, a4, a5, a6, a7, a8, a9, a10, a11] = [0, 0, 0, 0, 0, 0, 0, 0, 0, 0, 255, 255]
  · simp only [List.cons.injEq, and_true] at h
    obtain ⟨h0, h1, h2, h3, h4, h5, h6, h7, h8, h9, h10, h11⟩ := h
    subst h0 h1 h2 h3 h4 h5 h6 h7 h8 h9 h10 h11
    rfl
  · have h' := h
    simp only [List.cons.injEq, and_true, not_and] at h'
    have e : List.take 12 [a0, a1, a2, a3, a4, a5, a6, a7, a8, a9, a10, a11, a12, a13, a14, a15]
      = [a0, a1, a2, a3, a4, a5, a6, a7, a8, a9, a10, a11] := rfl
    rw [e, if_neg h]
    simp
    intro h0 h1 h2 h3 h4 h5 h6 h7 h8 h9 h10
    exact h' h0 h1 h2 h3 h4 h5 h6 h7 h8 h9 h10

theorem value_take_drop (a : List Nat) (k : Nat) :
    value a = value (a.take k) * 256 ^ (a.drop k).length + value (a.drop k) := by
  conv_lhs => rw [← List.take_append_drop k a]
  rw [value_append]

theorem isBytes_take {a : List Nat} (k : Nat) (h : IsBytes a) : IsBytes (a.take k) :=
  fun b hb => h b (List.mem_of_mem_take hb)

theorem isBytes_drop {a : List Nat} (k : Nat) (h : IsBytes a) : IsBytes (a.drop k) :=
  fun b hb => h b (List.mem_of_mem_drop hb)

theorem value_sixteen {a : List Nat} (hl : a.length = 16) :
    value a = value (a.take 12) * 2 ^ 32 + value (a.drop 12) := by
  have h := value_take_drop a 12
  have hd : (a.drop 12).length = 4 := by simp [hl]
  rw [hd] at h
  rw [h]
  norm_num

theorem value_drop_lt {a : List Nat} (hl : a.length = 16) (hb : IsBytes a) :
    value (a.drop 12) < 2 ^ 32 := by
  have h := value_lt (isBytes_drop 12 hb)
  have hd : (a.drop 12).length = 4 := by simp [hl]
  rw [hd] at h
  exact h

theorem value_div_sixteen {a : List Nat} (hl : a.length = 16) (hb : IsBytes a) :
    value a / 2 ^ 32 = value (a.take 12) := by
  rw [value_sixteen hl, Nat.add_comm, Nat.add_mul_div_right _ _ (by positivity),
    Nat.div_eq_of_lt (value_drop_lt hl hb), Nat.zero_add]

/-- A 16-byte address starts with `v4InV6Prefix` exactly when its value lies
in the block `0xffff * 2^32 ..`. -/
theorem mapped_iff {a : List Nat} (hl : a.length = 16) (hb : IsBytes a) :
    a.take 12 = v4InV6Prefix ↔ value a / 2 ^ 32 = 65535 := by
  rw [value_div_sixteen hl hb]
  constructor
  · intro h; rw [h]; rfl
  · intro h
    apply value_inj (isBytes_take 12 hb) (by decide)
    · simp [hl, v4InV6Prefix]
    · rw [h]; rfl

theorem CIDRMask_four {n : Nat} (h : n ≤ 32) : CIDRMask n 32 = cidrMaskLoop 4 n := by
  simp [CIDRMask]; omega

theorem CIDRMask_sixteen {n : Nat} (h : n ≤ 128) : CIDRMask n 128 = cidrMaskLoop 16 n := by
  simp [CIDRMask]; omega

theorem Mask_four {addr m : List Nat} (ha : addr.length = 4) (hm : m.length = 4) :
    Mask (v4InV6Prefix ++ addr) m = andBytes addr m := by
  have h1 : (v4InV6Prefix ++ addr).length = 16 := by simp [v4InV6Prefix, ha]
  have h2 : (v4InV6Prefix ++ addr).take 12 = v4InV6Prefix := by
    rw [List.take_append_of_le_length (by simp [v4InV6Prefix])]
    simp [v4InV6Prefix]
  have h3 : (v4InV6Prefix ++ addr).drop 12 = addr := by
    rw [List.drop_append_of_le_length (by simp [v4InV6Prefix])]
    simp [v4InV6Prefix]
  simp [Mask, hm, h1, h2, h3, ha]

theorem Mask_sixteen {addr m : List Nat} (ha : addr.length = 16) (hm : m.length = 16) :
    Mask addr m = andBytes addr m := by
  simp [Mask, hm, ha]

theorem ParseCIDR_four {addr : List Nat} {n : Nat} (ha : addr.length = 4) (hn : n ≤ 32) :
    ParseCIDR addr n = some (v4InV6Prefix ++ addr,
      { IP := andBytes addr (cidrMaskLoop 4 n), Mask := cidrMaskLoop 4 n }) := by
  have h8 : ¬ 8 * 4 < n := by omega
  simp only [ParseCIDR, ha, ne_eq, not_true_eq_false, false_and, if_false, h8, if_true]
  rw [show 8 * 4 = 32 from rfl, CIDRMask_four hn, Mask_four ha (cidrMaskLoop_length 4 n)]

theorem ParseCIDR_sixteen {addr : List Nat} {n : Nat} (ha : addr.length = 16) (hn : n ≤ 128) :
    ParseCIDR addr n = some (addr,
      { IP := andBytes addr (cidrMaskLoop 16 n), Mask := cidrMaskLoop 16 n }) := by
  have h8 : ¬ 8 * 16 < n := by omega
  have h4 : ¬ (16 = 4) := by decide
  simp only [ParseCIDR, ha, ne_eq, not_true_eq_false, and_false, if_false, h8, h4]
  rw [show 8 * 16 = 128 from rfl, CIDRMask_sixteen hn, Mask_sixteen ha (cidrMaskLoop_length 16 n)]

theorem Contains_four {base m a : List Nat} (hb : base.length = 4) (hm : m.length = 4)
    (ha : a.length = 4) : Contains { IP := base, Mask := m } a = sameMasked base m a := by
  simp [Contains, networkNumberAndMask, To4_four hb, To4_four ha, hm, hb, ha]

theorem Contains_sixteen {base m a : List Nat} (hb : base.length = 16) (hm : m.length = 16)
    (ha : a.length = 16) :
    Contains { IP := base, Mask := m } a =
      if base.take 12 = v4InV6Prefix then
        (if a.take 12 = v4InV6Prefix then sameMasked (base.drop 12) (m.drop 12) (a.drop 12) else false)
      else (if a.take 12 = v4InV6Prefix then false else sameMasked base m a) := by
  simp only [Contains, networkNumberAndMask, To4_sixteen hb, To4_sixteen ha]
  by_cases h1 : base.take 12 = v4InV6Prefix <;> by_cases h2 : a.take 12 = v4InV6Prefix <;>
    simp [h1, h2, hm, hb, ha]

theorem cidrMaskLoop_ff (k : Nat) : ∀ (l n : Nat), 8 * k ≤ n →
    cidrMaskLoop (k + l) n = List.replicate k 255 ++ cidrMaskLoop l (n - 8 * k) := by
  induction k with
  | zero => intro l n _; simp
  | succ k ih =>
    intro l n h
    have e : k + 1 + l = (k + l) + 1 := by omega
    have h8 : 8 ≤ n := by omega
    rw [e, cidrMaskLoop, if_pos h8, ih l (n - 8) (by omega), List.replicate_succ]
    have : n - 8 - 8 * k = n - 8 * (k + 1) := by omega
    rw [this]; rfl

theorem cidrMaskLoop_drop {n : Nat} (h : 96 ≤ n) :
    (cidrMaskLoop 16 n).drop 12 = cidrMaskLoop 4 (n - 96) := by
  rw [show 16 = 12 + 4 from rfl, cidrMaskLoop_ff 12 4 n (by omega)]
  rw [List.drop_append_of_le_length (by simp)]
  simp

theorem base_value {l n : Nat} {addr : List Nat} (hl : addr.length = l) (hb : IsBytes addr)
    (hn : n ≤ 8 * l) :
    value (andBytes addr (cidrMaskLoop l n)) / 2 ^ (8 * l - n) = value addr / 2 ^ (8 * l - n) := by
  rw [andBytes_cidr l n addr hl hb hn, Nat.mul_div_cancel _ (by positivity)]

theorem base_length {l n : Nat} {addr : List Nat} (hl : addr.length = l) :
    (andBytes addr (cidrMaskLoop l n)).length = l := by
  rw [andBytes_length _ _ (by rw [cidrMaskLoop_length, hl]), hl]

theorem Contains_four_iff {addr a : List Nat} {n : Nat} (hal : addr.length = 4)
    (hab : IsBytes addr) (hn : n ≤ 32) (hl : a.length = 4) (hb : IsBytes a) :
    Contains { IP := andBytes addr (cidrMaskLoop 4 n), Mask := cidrMaskLoop 4 n } a = true ↔
      value a / 2 ^ (32 - n) = value addr / 2 ^ (32 - n) := by
  rw [Contains_four (base_length hal) (cidrMaskLoop_length 4 n) hl,
    sameMasked_cidr 4 n _ a (base_length hal) hl (andBytes_isBytes _ hab) hb (by omega),
    base_value hal hab (by omega)]
  exact eq_comm

theorem div_div_pow (v h : Nat) (hh : h ≤ 32) : v / 2 ^ 32 = v / 2 ^ h / 2 ^ (32 - h) := by
  rw [Nat.div_div_eq_div_mul, ← pow_add]
  congr 2
  omega

theorem Contains_sixteen_iff {addr a : List Nat} {n : Nat} (hal : addr.length = 16)
    (hab : IsBytes addr) (hn : n ≤ 128) (hl : a.length = 16) (hb : IsBytes a) :
    Contains { IP := andBytes addr (cidrMaskLoop 16 n), Mask := cidrMaskLoop 16 n } a = true ↔
      value a / 2 ^ (128 - n) = value addr / 2 ^ (128 - n) ∧
        (value (andBytes addr (cidrMaskLoop 16 n)) / 2 ^ 32 = 65535 ∨ value a / 2 ^ 32 ≠ 65535) := by
  have hBl := base_length (n := n) hal
  have hBb : IsBytes (andBytes addr (cidrMaskLoop 16 n)) := andBytes_isBytes _ hab
  have hbv := base_value (n := n) hal hab (by omega)
  have hval := andBytes_cidr 16 n addr hal hab (by omega)
  rw [show 8 * 16 = 128 from rfl] at hbv hval
  rw [Contains_sixteen hBl (cidrMaskLoop_length 16 n) hl]
  simp only [mapped_iff hBl hBb, mapped_iff hl hb]
  generalize andBytes addr (cidrMaskLoop 16 n) = base at hBl hBb hbv hval
  by_cases hB : value base / 2 ^ 32 = 65535
  · have hn96 : 96 ≤ n := by
      by_contra hc
      have e : 2 ^ (128 - n) = 2 ^ (128 - n - 33) * 2 * 2 ^ 32 := by
        rw [← pow_succ, ← pow_add]; congr 1; omega
      generalize value addr / 2 ^ (128 - n) = q at hval
      rw [hval, e, ← Nat.mul_assoc, Nat.mul_div_cancel _ (by positivity), ← Nat.mul_assoc] at hB
      omega
    have hh : 128 - n ≤ 32 := by omega
    by_cases hA : value a / 2 ^ 32 = 65535
    · rw [if_pos hB, if_pos hA]
      simp only [hB, true_or, and_true]
      rw [cidrMaskLoop_drop hn96,
        sameMasked_cidr 4 (n - 96) _ _ (by simp [hBl]) (by simp [hl]) (isBytes_drop 12 hBb)
          (isBytes_drop 12 hb) (by omega)]
      have e1 : 8 * 4 - (n - 96) = 128 - n := by omega
      rw [e1, ← hbv]
      have ta := (mapped_iff hl hb).2 hA
      have tb := (mapped_iff hBl hBb).2 hB
      have va := value_sixteen hl
      have vb := value_sixteen hBl
      rw [ta] at va
      rw [tb] at vb
      have e2 : (2 : Nat) ^ 32 = 2 ^ (32 - (128 - n)) * 2 ^ (128 - n) := by
        rw [← pow_add]; congr 1; omega
      have hp : 0 < 2 ^ (128 - n) := by positivity
      have da : value a / 2 ^ (128 - n)
          = value v4InV6Prefix * 2 ^ (32 - (128 - n)) + value (a.drop 12) / 2 ^ (128 - n) := by
        rw [va, e2, ← Nat.mul_assoc, Nat.add_comm, Nat.add_mul_div_right _ _ hp, Nat.add_comm]
      have db : value base / 2 ^ (128 - n)
          = value v4InV6Prefix * 2 ^ (32 - (128 - n)) + value (base.drop 12) / 2 ^ (128 - n) := by
        rw [vb, e2, ← Nat.mul_assoc, Nat.add_comm, Nat.add_mul_div_right _ _ hp, Nat.add_comm]
      rw [da, db]
      constructor
      · intro h; rw [h]
      · intro h; omega
    · rw [if_pos hB, if_neg hA]
      simp only [hB, true_or, and_true]
      constructor
      · intro h; exact absurd h (by simp)
      · intro h
        exfalso
        apply hA
        rw [div_div_pow _ _ hh, h, ← hbv, ← div_div_pow _ _ hh, hB]
  · by_cases hA : value a / 2 ^ 32 = 65535
    · rw [if_neg hB, if_pos hA]
      simp only [hB, hA, false_or, ne_eq, not_true_eq_false, and_false]
      simp
    · rw [if_neg hB, if_neg hA]
      simp only [hB, hA, false_or, ne_eq, not_false_eq_true, and_true]
      rw [sameMasked_cidr 16 n _ a hBl hl hBb hb (by omega), show 8 * 16 = 128 from rfl, hbv]
      exact eq_comm

/-! ## The scan loop -/

theorem scanLoop_run (net : IPNet) (N : Nat) :
    ∀ ip : IP, (∀ k < N, Contains net (incrementIP^[k] ip) = true) →
      Contains net (incrementIP^[N] ip) = false →
      ∀ fuel, N < fuel →
        scanLoop net fuel ip = some ((List.range N).map (fun k => incrementIP^[k] ip)) := by
  induction N with
  | zero =>
    intro ip _ hN fuel hf
    obtain ⟨f, rfl⟩ : ∃ f, fuel = f + 1 := ⟨fuel - 1, by omega⟩
    have h0 : Contains net ip = false := hN
    simp [scanLoop, h0]
  | succ N ih =>
    intro ip hk hN fuel hf
    obtain ⟨f, rfl⟩ : ∃ f, fuel = f + 1 := ⟨fuel - 1, by omega⟩
    have h0 : Contains net ip = true := hk 0 (by omega)
    have hrec := ih (incrementIP ip)
      (fun k hlt => by
        have := hk (k + 1) (by omega)
        rwa [Function.iterate_succ_apply] at this)
      (by rwa [Function.iterate_succ_apply] at hN) f (by omega)
    simp only [scanLoop, h0, if_true, hrec, Option.map_some']
    rw [List.range_succ_eq_map, List.map_cons, List.map_map]
    rfl

theorem scanLoop_diverge (net : IPNet) :
    ∀ (fuel : Nat) (ip : IP), (∀ k, Contains net (incrementIP^[k] ip) = true) →
      scanLoop net fuel ip = none := by
  intro fuel
  induction fuel with
  | zero => intro ip _; rfl
  | succ f ih =>
    intro ip hk
    have h0 : Contains net ip = true := hk 0
    have hrec := ih (incrementIP ip) (fun k => by
      have := hk (k + 1)
      rwa [Function.iterate_succ_apply] at this)
    simp [scanLoop, h0, hrec]

theorem scan_four {addr : List Nat} {n : Nat} (ha : addr.length = 4) (hn : n ≤ 32) (fuel : Nat) :
    scan addr n fuel =
      scanLoop { IP := andBytes addr (cidrMaskLoop 4 n), Mask := cidrMaskLoop 4 n } fuel
        (andBytes addr (cidrMaskLoop 4 n)) := by
  simp only [scan, ParseCIDR_four ha hn]
  rw [Mask_four ha (cidrMaskLoop_length 4 n)]

theorem scan_sixteen {addr : List Nat} {n : Nat} (ha : addr.length = 16) (hn : n ≤ 128)
    (fuel : Nat) :
    scan addr n fuel =
      scanLoop { IP := andBytes addr (cidrMaskLoop 16 n), Mask := cidrMaskLoop 16 n } fuel
        (andBytes addr (cidrMaskLoop 16 n)) := by
  simp only [scan, ParseCIDR_sixteen ha hn]
  rw [Mask_sixteen ha (cidrMaskLoop_length 16 n)]

/-- The value of the `k`-th address visited from `start` while no wrap occurs. -/
theorem iterate_value_lt {start : List Nat} (hb : IsBytes start) {k : Nat}
    (hk : value start + k < 256 ^ start.length) :
    value (incrementIP^[k] start) = value start + k := by
  rw [iterate_value k hb, Nat.mod_eq_of_lt hk]

/-- A byte sequence is the `k`-th successor of `start` when its value is
`value start + k`. -/
theorem eq_iterate_of_value {start a : List Nat} (hs : IsBytes start) (ha : IsBytes a)
    (hl : a.length = start.length) {k : Nat} (hk : value start + k < 256 ^ start.length)
    (hv : value a = value start + k) : a = incrementIP^[k] start := by
  apply value_inj ha (iterate_isBytes k hs)
  · rw [iterate_length, hl]
  · rw [iterate_value_lt hs hk, hv]

theorem andBytes_full {l : Nat} {a : List Nat} (hl : a.length = l) (hb : IsBytes a) :
    andBytes a (cidrMaskLoop l (8 * l)) = a := by
  apply value_inj (andBytes_isBytes _ hb) hb
  · rw [base_length hl, hl]
  · rw [andBytes_cidr l (8 * l) a hl hb (le_refl _)]
    simp

theorem incrementIP_value_ne {a : List Nat} (hb : IsBytes a) (hl : 0 < a.length) :
    value (incrementIP a) ≠ value a := by
  rw [incrementIP_value hb]
  have h1 := value_lt hb
  have h2 : 1 < 256 ^ a.length := Nat.one_lt_pow (by omega) (by norm_num)
  by_cases h : value a + 1 < 256 ^ a.length
  · rw [Nat.mod_eq_of_lt h]; omega
  · have e : value a + 1 = 256 ^ a.length := by omega
    rw [e, Nat.mod_self]; omega

theorem scanLoop_single (net : IPNet) (a : IP) (h1 : Contains net a = true)
    (h2 : Contains net (incrementIP a) = false) {fuel : Nat} (hf : 2 ≤ fuel) :
    scanLoop net fuel a = some [a] := by
  have h := scanLoop_run net 1 a
    (by
      intro k hk
      have hk0 : k = 0 := by omega
      subst hk0
      exact h1)
    (by simpa using h2) fuel (by omega)
  rw [h]
  rfl

theorem scan_single_four {a : List Nat} (hb : IsBytes a) (hl : a.length = 4) {fuel : Nat}
    (hf : 2 ≤ fuel) : scan a 32 fuel = some [a] := by
  rw [scan_four hl (le_refl _)]
  have hbase : andBytes a (cidrMaskLoop 4 32) = a := andBytes_full hl hb
  have hc1 := (Contains_four_iff hl hb (le_refl _) hl hb).2 rfl
  have hc2 : Contains { IP := andBytes a (cidrMaskLoop 4 32), Mask := cidrMaskLoop 4 32 }
      (incrementIP a) = false := by
    rw [Bool.eq_false_iff]
    intro hc
    have := (Contains_four_iff hl hb (le_refl _) (by rw [incrementIP_length, hl])
      (incrementIP_isBytes hb)).1 hc
    simp only [Nat.sub_self, pow_zero, Nat.div_one] at this
    exact incrementIP_value_ne hb (by omega) this
  generalize ({ IP := andBytes a (cidrMaskLoop 4 32), Mask := cidrMaskLoop 4 32 } : IPNet) = net
    at hc1 hc2 ⊢
  rw [hbase]
  exact scanLoop_single net a hc1 hc2 hf

theorem scan_single_sixteen {a : List Nat} (hb : IsBytes a) (hl : a.length = 16) {fuel : Nat}
    (hf : 2 ≤ fuel) : scan a 128 fuel = some [a] := by
  rw [scan_sixteen hl (le_refl _)]
  have hbase : andBytes a (cidrMaskLoop 16 128) = a := andBytes_full hl hb
  have hc1 : Contains { IP := andBytes a (cidrMaskLoop 16 128), Mask := cidrMaskLoop 16 128 }
      a = true := by
    refine (Contains_sixteen_iff hl hb (le_refl _) hl hb).2 ⟨rfl, ?_⟩
    rw [hbase]
    exact Decidable.em _
  have hc2 : Contains { IP := andBytes a (cidrMaskLoop 16 128), Mask := cidrMaskLoop 16 128 }
      (incrementIP a) = false := by
    rw [Bool.eq_false_iff]
    intro hc
    have := ((Contains_sixteen_iff hl hb (le_refl _) (by rw [incrementIP_length, hl])
      (incrementIP_isBytes hb)).1 hc).1
    simp only [Nat.sub_self, pow_zero, Nat.div_one] at this
    exact incrementIP_value_ne hb (by omega) this
  generalize ({ IP := andBytes a (cidrMaskLoop 16 128), Mask := cidrMaskLoop 16 128 } : IPNet) = net
    at hc1 hc2 ⊢
  rw [hbase]
  exact scanLoop_single net a hc1 hc2 hf

theorem Contains_prefix_zero {addr a : List Nat} (hal : addr.length = 4) (hab : IsBytes addr)
    (hl : a.length = 4) (hb : IsBytes a) :
    Contains { IP := andBytes addr (cidrMaskLoop 4 0), Mask := cidrMaskLoop 4 0 } a = true := by
  refine (Contains_four_iff hal hab (Nat.zero_le _) hl hb).2 ?_
  have h1 := value_lt hb
  have h2 := value_lt hab
  rw [hl] at h1
  rw [hal] at h2
  rw [Nat.div_eq_of_lt (by simpa using h1), Nat.div_eq_of_lt (by simpa using h2)]

theorem scanLoop_prefix_zero {addr a : List Nat} (hal : addr.length = 4) (hab : IsBytes addr)
    (hl : a.length = 4) (hb : IsBytes a) (fuel : Nat) :
    scanLoop { IP := andBytes addr (cidrMaskLoop 4 0), Mask := cidrMaskLoop 4 0 } fuel a = none :=
  scanLoop_diverge _ fuel a (fun k =>
    Contains_prefix_zero hal hab (by rw [iterate_length, hl]) (iterate_isBytes k hb))

theorem base_zero16 : andBytes zero16 (cidrMaskLoop 16 64) = zero16 := by decide

theorem contains_below_mapped (k : Nat) (hk : k < 2 ^ 48 - 2 ^ 32) :
    Contains { IP := andBytes zero16 (cidrMaskLoop 16 64), Mask := cidrMaskLoop 16 64 }
      (incrementIP^[k] zero16) = true := by
  have hz : IsBytes zero16 := by decide
  have hv : value (incrementIP^[k] zero16) = k := by
    rw [iterate_value_lt hz (by
      have : value zero16 = 0 := by decide
      rw [this]
      have : zero16.length = 16 := rfl
      rw [this]
      norm_num at hk ⊢
      omega)]
    have : value zero16 = 0 := by decide
    rw [this, Nat.zero_add]
  refine (@Contains_sixteen_iff zero16 _ 64 rfl hz (by norm_num) (by rw [iterate_length]; rfl)
    (iterate_isBytes k hz)).2 ⟨?_, Or.inr ?_⟩
  · rw [hv]
    have : value zero16 = 0 := by decide
    rw [this]
    norm_num at hk ⊢
    omega
  · rw [hv]
    norm_num at hk ⊢
    omega

theorem contains_at_mapped :
    Contains { IP := andBytes zero16 (cidrMaskLoop 16 64), Mask := cidrMaskLoop 16 64 }
      (incrementIP^[2 ^ 48 - 2 ^ 32] zero16) = false := by
  have hz : IsBytes zero16 := by decide
  have hv : value (incrementIP^[2 ^ 48 - 2 ^ 32] zero16) = 2 ^ 48 - 2 ^ 32 := by
    rw [iterate_value_lt hz (by
      have : value zero16 = 0 := by decide
      rw [this]
      have : zero16.length = 16 := rfl
      rw [this]
      norm_num)]
    have : value zero16 = 0 := by decide
    rw [this, Nat.zero_add]
  rw [Bool.eq_false_iff]
  intro hc
  have h := ((@Contains_sixteen_iff zero16 _ 64 rfl hz (by norm_num) (by rw [iterate_length]; rfl)
    (iterate_isBytes _ hz)).1 hc).2
  rw [hv, base_zero16] at h
  have : value zero16 = 0 := by decide
  rw [this] at h
  norm_num at h

/-- Claim C2: `incrementIP` is a unit increment, with carry, of the big-endian
value of the byte sequence: the length is unchanged, the value becomes
`(value + 1) mod 2^(8n)`, `a.b.c.255` becomes `a.b.(c+1).0` when `c < 255`, and
in general the bytes left of the first byte that does not wrap (`c < 255`
followed by `k` bytes `255`) are unchanged while that byte is incremented and
the wrapped bytes become zero. -/
theorem incrementIP_unit_increment (ip : IP) (hip : IsBytes ip)
    (a b c : Nat) (hc : c < 255) (pre : List Nat) (k : Nat) :
    (incrementIP ip).length = ip.length ∧
      value (incrementIP ip) = (value ip + 1) % 2 ^ (8 * ip.length) ∧
      incrementIP [a, b, c, 255] = [a, b, c + 1, 0] ∧
      incrementIP (pre ++ c :: List.replicate k 255) = pre ++ (c + 1) :: List.replicate k 0 := by
  refine ⟨incrementIP_length ip, ?_, ?_, incrementIP_carry pre c k hc⟩
  · rw [incrementIP_value hip, pow256]
  · exact incrementIP_carry [a, b] c 1 hc

theorem incrementIP_unit_increment_witness :
    IsBytes [10, 0, 255, 255] ∧ (1 : Nat) < 255 ∧
      ((incrementIP [10, 0, 255, 255]).length = [10, 0, 255, 255].length ∧
        value (incrementIP [10, 0, 255, 255]) = (value [10, 0, 255, 255] + 1) % 2 ^ (8 * [10, 0, 255, 255].length) ∧
        incrementIP [192, 168, 1, 255] = [192, 168, 1 + 1, 0] ∧
        incrementIP ([10] ++ 1 :: List.replicate 2 255) = [10] ++ (1 + 1) :: List.replicate 2 0) :=
  ⟨by decide, by decide, incrementIP_unit_increment [10, 0, 255, 255] (by decide) 192 168 1 (by decide) [10] 2⟩

/-- Claim C1, at the failing input: for every IPv4 range with prefix length 0
(`0.0.0.0/0`) the scan loop never reaches a failing guard, whatever the number
of iterations allowed: it does not stop after `2^32` addresses. -/
theorem scan_zero_prefix_never_stops (addr : IP) (hb : IsBytes addr) (hl : addr.length = 4)
    (fuel : Nat) : scan addr 0 fuel = none := by
  rw [scan_four hl (Nat.zero_le _)]
  exact scanLoop_prefix_zero hl hb (base_length hl) (andBytes_isBytes _ hb) fuel

theorem scan_zero_prefix_never_stops_witness :
    IsBytes [0, 0, 0, 0] ∧ [0, 0, 0, 0].length = 4 ∧ scan [0, 0, 0, 0] 0 (2 ^ 32 + 1) = none :=
  ⟨by decide, rfl, scan_zero_prefix_never_stops [0, 0, 0, 0] (by decide) rfl (2 ^ 32 + 1)⟩

/-- Claim C3, at the failing input `0.0.0.0/0`: `incrementIP` on the all-ones
address `255.255.255.255` returns `0.0.0.0` (no out-of-range access), but that
address is contained in the range again, so the loop that has just visited
`255.255.255.255` goes on and never stops. -/
theorem all_ones_wraps_into_range :
    incrementIP [255, 255, 255, 255] = [0, 0, 0, 0] ∧
      ∃ ip net, ParseCIDR [0, 0, 0, 0] 0 = some (ip, net) ∧
        Contains net [255, 255, 255, 255] = true ∧
        Contains net (incrementIP [255, 255, 255, 255]) = true ∧
        ∀ fuel, scanLoop net fuel [255, 255, 255, 255] = none := by
  refine ⟨by decide, _, _, ParseCIDR_four (n := 0) (show [0, 0, 0, 0].length = 4 from rfl)
    (Nat.zero_le _), by decide, by decide, ?_⟩
  intro fuel
  exact @scanLoop_prefix_zero [0, 0, 0, 0] [255, 255, 255, 255] rfl (by decide) rfl (by decide) fuel

/-- Claim C10, at the failing input `::/64`: the loop stops when it reaches the
IPv4-mapped address `::ffff:0:0`, for which `Contains` is false, after
`2^48 - 2^32` addresses; the address `::1:0:0:0` is contained in the network
and is never visited. -/
theorem scan_stops_at_ipv4_mapped :
    ∃ L : List IP,
      (∀ fuel, 2 ^ 48 - 2 ^ 32 < fuel → scan zero16 64 fuel = some L) ∧
      L.length = 2 ^ 48 - 2 ^ 32 ∧
      (∃ ip net, ParseCIDR zero16 64 = some (ip, net) ∧
        Contains net [0, 0, 0, 0, 0, 0, 0, 0, 0, 0, 255, 255, 0, 0, 0, 0] = false ∧
        Contains net aboveMapped = true) ∧
      aboveMapped ∉ L := by
  refine ⟨(List.range (2 ^ 48 - 2 ^ 32)).map (fun k => incrementIP^[k] zero16), ?_,
    by rw [List.length_map, List.length_range],
    ⟨_, _, ParseCIDR_sixteen (n := 64) (show zero16.length = 16 from rfl) (by norm_num),
      by decide, by decide⟩, ?_⟩
  · intro fuel hf
    rw [scan_sixteen (show zero16.length = 16 from rfl) (by norm_num)]
    have h := scanLoop_run
      { IP := andBytes zero16 (cidrMaskLoop 16 64), Mask := cidrMaskLoop 16 64 }
      (2 ^ 48 - 2 ^ 32) zero16 contains_below_mapped contains_at_mapped fuel hf
    rw [← h]
    congr 1
  · intro hmem
    rw [List.mem_map] at hmem
    obtain ⟨k, hk, hk2⟩ := hmem
    rw [List.mem_range] at hk
    have hz : IsBytes zero16 := by decide
    have hv := congrArg value hk2
    rw [iterate_value_lt hz (by
      have : value zero16 = 0 := by decide
      rw [this]
      have : zero16.length = 16 := rfl
      rw [this]
      norm_num at hk ⊢
      omega)] at hv
    have h0 : value zero16 = 0 := by decide
    have h1 : value aboveMapped = 2 ^ 48 := by decide
    rw [h0, h1] at hv
    norm_num at hk hv
    omega

theorem init_eq {f : Flags} {s : State} (h : init f = some s) :
    ∃ ip ipnet, ParseCIDR f.addr f.bits = some (ip, ipnet) ∧
      s = { ipnet := ipnet, main := MainPc.loopHead (Mask ip ipnet.Mask), wg := 0, sem := 0,
            units := [], world := { trace := [], clock := 0 } } := by
  unfold init at h
  split at h
  · exact absurd h (by simp)
  · rename_i ip ipnet hp
    exact ⟨ip, ipnet, hp, (Option.some.inj h).symm⟩

theorem countP_set_of_getElem? {α : Type} (p : α → Bool) (l : List α) (i : Nat) (u v : α)
    (h : l[i]? = some u) :
    (l.set i v).countP p + (if p u then 1 else 0) = l.countP p + (if p v then 1 else 0) := by
  obtain ⟨hi, hu⟩ := List.getElem?_eq_some.1 h
  rw [List.countP_set p l i v hi, hu]
  have := List.boole_getElem_le_countP p l i hi
  rw [hu] at this
  omega

theorem all_finished_of_countP {l : List UnitState} (h : l.countP unfinished = 0) :
    ∀ u ∈ l, u.pc = UnitPc.finished := by
  intro u hu
  rw [List.countP_eq_zero] at h
  have := h u hu
  cases hpc : u.pc <;> simp [unfinished, hpc] at this ⊢

theorem balanced_step {env : Env} {f : Flags} {s t : State} (a : Action) (hs : Balanced f s)
    (h : step env f s a = some t) : Balanced f t := by
  obtain ⟨h1, h2, h3, h4⟩ := hs
  cases a with
  | main =>
    simp only [step, stepMain] at h
    cases hm : s.main with
    | loopHead ip =>
      rw [hm] at h
      simp only at h
      split at h <;> cases h <;>
        simp_all [Balanced, admitted, mainSlot, mainAdded]
    | acquire ip =>
      rw [hm] at h
      simp only at h
      split at h
      · cases h
        simp_all [Balanced, admitted, mainSlot, mainAdded]
        omega
      · exact absurd h (by simp)
    | spawn ip =>
      rw [hm] at h
      cases h
      simp_all [Balanced, admitted, mainSlot, mainAdded, holdsSlot, unfinished]
    | wait =>
      rw [hm] at h
      simp only at h
      split at h
      · rename_i hw
        cases h
        simp_all [Balanced, admitted, mainSlot, mainAdded]
        exact all_finished_of_countP (by omega)
      · exact absurd h (by simp)
    | exited =>
      rw [hm] at h
      exact absurd h (by simp)
  | unit i =>
    simp only [step, stepUnit] at h
    cases hu : s.units[i]? with
    | none => rw [hu] at h; exact absurd h (by simp)
    | some u =>
      rw [hu] at h
      simp only at h
      have hmem : u ∈ s.units := List.getElem?_mem hu
      have hne : s.main ≠ MainPc.exited := by
        intro he
        have := h4 he u hmem
        rw [this] at h
        exact absurd h (by simp)
      cases hpc : u.pc with
      | run k =>
        rw [hpc] at h
        simp only at h
        cases hd : (unitDomains f)[k]? with
        | some d =>
          rw [hd] at h
          cases h
          have c1 := countP_set_of_getElem? holdsSlot s.units i u
            { ip := u.ip, pc := UnitPc.run (k + 1), receives := u.receives } hu
          have c2 := countP_set_of_getElem? unfinished s.units i u
            { ip := u.ip, pc := UnitPc.run (k + 1), receives := u.receives } hu
          simp only [holdsSlot, unfinished, hpc, if_true] at c1 c2
          refine ⟨?_, h2, ?_, fun he => absurd he hne⟩
          · simp only [admitted] at h1 ⊢; omega
          · simp only; omega
        | none =>
          rw [hd] at h
          simp only at h
          split at h
          · cases h
            have c1 := countP_set_of_getElem? holdsSlot s.units i u
              { ip := u.ip, pc := UnitPc.released, receives := u.receives + 1 } hu
            have c2 := countP_set_of_getElem? unfinished s.units i u
              { ip := u.ip, pc := UnitPc.released, receives := u.receives + 1 } hu
            simp only [holdsSlot, unfinished, hpc, if_true] at c1 c2
            simp at c1
            refine ⟨?_, by simp only; omega, ?_, fun he => absurd he hne⟩
            · simp only [admitted] at h1 ⊢; omega
            · simp only; omega
          · exact absurd h (by simp)
      | released =>
        rw [hpc] at h
        cases h
        have c1 := countP_set_of_getElem? holdsSlot s.units i u
          { ip := u.ip, pc := UnitPc.finished, receives := u.receives } hu
        have c2 := countP_set_of_getElem? unfinished s.units i u
          { ip := u.ip, pc := UnitPc.finished, receives := u.receives } hu
        simp only [holdsSlot, unfinished, hpc, if_true] at c1 c2
        simp at c1 c2
        refine ⟨?_, h2, ?_, fun he => absurd he hne⟩
        · simp only [admitted] at h1 ⊢; omega
        · simp only; omega
      | finished =>
        rw [hpc] at h
        exact absurd h (by simp)

theorem balanced_of_reachable {env : Env} {f : Flags} {s : State} (h : Reachable env f s) :
    Balanced f s := by
  induction h with
  | init h0 =>
    obtain ⟨ip, ipnet, _, rfl⟩ := init_eq h0
    simp [Balanced, admitted, mainSlot, mainAdded]
  | step a _ hst ih => exact balanced_step a ih hst

theorem mem_set_of {α : Type} {l : List α} {i : Nat} {v x : α} (h : x ∈ l.set i v) :
    x ∈ l ∨ x = v := by
  rcases List.mem_or_eq_of_mem_set h with h | h
  · exact Or.inl h
  · exact Or.inr h

theorem unitOk_step {env : Env} {f : Flags} {s t : State} (a : Action)
    (hs : ∀ u ∈ s.units, UnitOk f u) (h : step env f s a = some t) :
    ∀ u ∈ t.units, UnitOk f u := by
  cases a with
  | main =>
    simp only [step, stepMain] at h
    cases hm : s.main with
    | loopHead ip =>
      rw [hm] at h
      simp only at h
      split at h <;> cases h <;> exact hs
    | acquire ip =>
      rw [hm] at h
      simp only at h
      split at h
      · cases h; exact hs
      · exact absurd h (by simp)
    | spawn ip =>
      rw [hm] at h
      cases h
      intro u hu
      simp only [List.mem_append, List.mem_singleton] at hu
      rcases hu with hu | hu
      · exact hs u hu
      · subst hu; simp [UnitOk]
    | wait =>
      rw [hm] at h
      simp only at h
      split at h
      · cases h; exact hs
      · exact absurd h (by simp)
    | exited =>
      rw [hm] at h
      exact absurd h (by simp)
  | unit i =>
    simp only [step, stepUnit] at h
    cases hu : s.units[i]? with
    | none => rw [hu] at h; exact absurd h (by simp)
    | some u =>
      rw [hu] at h
      simp only at h
      have hok := hs u (List.getElem?_mem hu)
      cases hpc : u.pc with
      | run k =>
        rw [hpc] at h
        simp only at h
        simp only [UnitOk, hpc] at hok
        cases hd : (unitDomains f)[k]? with
        | some d =>
          rw [hd] at h
          cases h
          intro x hx
          rcases mem_set_of hx with hx | hx
          · exact hs x hx
          · subst hx
            have hk : k < (unitDomains f).length := (List.getElem?_eq_some.1 hd).1
            exact ⟨hk, hok.2⟩
        | none =>
          rw [hd] at h
          simp only at h
          split at h
          · cases h
            intro x hx
            rcases mem_set_of hx with hx | hx
            · exact hs x hx
            · subst hx
              simp [UnitOk, hok.2]
          · exact absurd h (by simp)
      | released =>
        rw [hpc] at h
        cases h
        simp only [UnitOk, hpc] at hok
        intro x hx
        rcases mem_set_of hx with hx | hx
        · exact hs x hx
        · subst hx
          simp [UnitOk, hok]
      | finished =>
        rw [hpc] at h
        exact absurd h (by simp)

theorem unitOk_of_reachable {env : Env} {f : Flags} {s : State} (h : Reachable env f s) :
    ∀ u ∈ s.units, UnitOk f u := by
  induction h with
  | init h0 =>
    obtain ⟨ip, ipnet, _, rfl⟩ := init_eq h0
    intro u hu
    simp at hu
  | step a _ hst ih => exact unitOk_step a ih hst

theorem scanned_step {env : Env} {f : Flags} {start : IP} {s t : State} (a : Action)
    (hs : Scanned start s) (h : step env f s a = some t) :
    Scanned start t ∧ t.ipnet = s.ipnet := by
  obtain ⟨h1, h2, h3⟩ := hs
  cases a with
  | main =>
    simp only [step, stepMain] at h
    cases hm : s.main with
    | loopHead ip =>
      rw [hm] at h h3
      simp only at h h3
      split at h
      · rename_i hc
        cases h
        exact ⟨⟨h1, h2, h3, hc⟩, rfl⟩
      · rename_i hc
        cases h
        refine ⟨⟨h1, h2, ?_⟩, rfl⟩
        simp only
        rw [← h3]
        simpa using hc
    | acquire ip =>
      rw [hm] at h h3
      simp only at h h3
      split at h
      · cases h
        exact ⟨⟨h1, h2, h3⟩, rfl⟩
      · exact absurd h (by simp)
    | spawn ip =>
      rw [hm] at h h3
      simp only at h3
      cases h
      refine ⟨⟨?_, ?_, ?_⟩, rfl⟩
      · simp only [List.map_append, List.length_append, List.length_singleton, List.map_cons,
          List.map_nil]
        rw [List.range_succ, List.map_append, h1, h3.1]
        rfl
      · intro j hj
        simp only [List.length_append, List.length_singleton] at hj
        by_cases hlt : j < s.units.length
        · exact h2 j hlt
        · have : j = s.units.length := by omega
          subst this
          rw [← h3.1]
          exact h3.2
      · simp only [List.length_append, List.length_singleton]
        rw [Function.iterate_succ_apply', ← h3.1]
    | wait =>
      rw [hm] at h h3
      simp only at h h3
      split at h
      · cases h
        exact ⟨⟨h1, h2, h3⟩, rfl⟩
      · exact absurd h (by simp)
    | exited =>
      rw [hm] at h
      exact absurd h (by simp)
  | unit i =>
    simp only [step, stepUnit] at h
    cases hu : s.units[i]? with
    | none => rw [hu] at h; exact absurd h (by simp)
    | some u =>
      rw [hu] at h
      simp only at h
      have key : ∀ (pc : UnitPc) (r : Nat),
          (s.units.set i { ip := u.ip, pc := pc, receives := r }).map (fun u => u.ip)
            = s.units.map (fun u => u.ip) := by
        intro pc r
        rw [List.map_set]
        apply List.ext_getElem?
        intro n
        rw [List.getElem?_set]
        split
        · rename_i hin
          subst hin
          split
          · rw [List.getElem?_map, hu]; rfl
          · rename_i hlen
            simp only [List.length_map] at hlen
            rw [List.getElem?_eq_none (by simpa using hlen)]
        · rfl
      cases hpc : u.pc with
      | run k =>
        rw [hpc] at h
        simp only at h
        cases hd : (unitDomains f)[k]? with
        | some d =>
          rw [hd] at h
          cases h
          refine ⟨⟨?_, ?_, ?_⟩, rfl⟩
          · simp only [List.length_set]; exact (key _ _).trans h1
          · simpa only [List.length_set] using h2
          · simpa only [List.length_set] using h3
        | none =>
          rw [hd] at h
          simp only at h
          split at h
          · cases h
            refine ⟨⟨?_, ?_, ?_⟩, rfl⟩
            · simp only [List.length_set]; exact (key _ _).trans h1
            · simpa only [List.length_set] using h2
            · simpa only [List.length_set] using h3
          · exact absurd h (by simp)
      | released =>
        rw [hpc] at h
        cases h
        refine ⟨⟨?_, ?_, ?_⟩, rfl⟩
        · simp only [List.length_set]; exact (key _ _).trans h1
        · simpa only [List.length_set] using h2
        · simpa only [List.length_set] using h3
      | finished =>
        rw [hpc] at h
        exact absurd h (by simp)

theorem scanned_of_reachable {env : Env} {f : Flags} {s : State} (h : Reachable env f s) :
    ∃ ip0, ParseCIDR f.addr f.bits = some (ip0, s.ipnet) ∧ Scanned (Mask ip0 s.ipnet.Mask) s := by
  induction h with
  | init h0 =>
    obtain ⟨ip, ipnet, hp, rfl⟩ := init_eq h0
    exact ⟨ip, hp, by simp [Scanned]⟩
  | step a _ hst ih =>
    obtain ⟨ip0, hp, hsc⟩ := ih
    obtain ⟨h1, h2⟩ := scanned_step a hsc hst
    refine ⟨ip0, ?_, ?_⟩
    · rw [h2]; exact hp
    · rw [h2]; exact h1

theorem perform_trace (env : Env) (w : World) (ip : IP) (d : String) :
    (performDnsQuery env w ip d).trace.map Event.core
      = w.trace.map Event.core ++ eventsOf env ip d := by
  simp only [performDnsQuery, SetQuestion, List.headD_cons, eventsOf, rowsOf, questionFor, serverOf]
  cases h : env.Exchange { Name := Fqdn d, Qtype := TypeA, Qclass := ClassINET }
      (JoinHostPort (ipString env ip) "53") with
  | none => simp [Event.core]
  | some ans =>
    simp [Event.core, DnsQuery.core, rowFor, dnsQuestionToString, TypeToString]

theorem rows_eq (w : World) :
    w.rows.map DnsQuery.core = (w.trace.map Event.core).filterMap (fun e => match e with
      | Event.exec row => some row
      | Event.exchange _ _ => none) := by
  simp only [World.rows]
  induction w.trace with
  | nil => rfl
  | cons e l ih =>
    cases e with
    | exchange q a => simpa [Event.core, List.filterMap_cons] using ih
    | exec r => simpa [Event.core, List.filterMap_cons] using ih

theorem exchanges_eq (w : World) :
    w.exchanges = (w.trace.map Event.core).filterMap (fun e => match e with
      | Event.exec _ => none
      | Event.exchange q a => some (q, a)) := by
  simp only [World.exchanges]
  induction w.trace with
  | nil => rfl
  | cons e l ih =>
    cases e with
    | exchange q a => simpa [Event.core, List.filterMap_cons] using ih
    | exec r => simpa [Event.core, List.filterMap_cons] using ih

theorem filterMap_exec (l : List DnsQuery) :
    (l.map Event.exec).filterMap (fun e => match e with
      | Event.exec row => some row
      | Event.exchange _ _ => none) = l := by
  induction l with
  | nil => rfl
  | cons r l ih =>
    simp only [List.map_cons, List.filterMap_cons]
    rw [ih]

theorem filterMap_exec_none (l : List DnsQuery) :
    (l.map Event.exec).filterMap (fun e => match e with
      | Event.exec _ => none
      | Event.exchange q a => some (q, a)) = [] := by
  induction l with
  | nil => rfl
  | cons r l ih =>
    simp only [List.map_cons, List.filterMap_cons]
    rw [ih]

theorem perform_rows (env : Env) (w : World) (ip : IP) (d : String) :
    (performDnsQuery env w ip d).rows.map DnsQuery.core
      = w.rows.map DnsQuery.core ++ rowsOf env ip d := by
  rw [rows_eq, rows_eq, perform_trace, List.filterMap_append]
  congr 1
  simp only [eventsOf, List.filterMap_cons]
  exact filterMap_exec _

theorem perform_exchanges (env : Env) (w : World) (ip : IP) (d : String) :
    (performDnsQuery env w ip d).exchanges
      = w.exchanges ++ [(questionFor d, serverOf env ip)] := by
  rw [exchanges_eq, exchanges_eq, perform_trace, List.filterMap_append]
  congr 1
  simp only [eventsOf, List.filterMap_cons]
  rw [filterMap_exec_none]

theorem rowsOf_length (env : Env) (ip : IP) (d : String) :
    (rowsOf env ip d).length = if succeeds env ip d then 1 else 0 := by
  unfold rowsOf succeeds
  split <;> simp_all

theorem perform_count (env : Env) (w : World) (ip : IP) (d : String)
    (h : w.rows.length = w.successes env) :
    (performDnsQuery env w ip d).rows.length = (performDnsQuery env w ip d).successes env := by
  have h1 := congrArg List.length (perform_rows env w ip d)
  simp only [List.length_map, List.length_append, rowsOf_length] at h1
  rw [h1, World.successes, perform_exchanges, List.countP_append, h, World.successes]
  simp [succeeds, List.countP_cons]

theorem stepKind_of_step {env : Env} {f : Flags} {s t : State} {a : Action}
    (h : step env f s a = some t) : StepKind env f s t := by
  cases a with
  | main =>
    simp only [step, stepMain] at h
    cases hm : s.main with
    | loopHead ip =>
      rw [hm] at h
      simp only at h
      split at h
      · rename_i hc
        cases h
        exact StepKind.guardTrue ip hm hc
      · rename_i hc
        cases h
        exact StepKind.guardFalse ip hm (by simpa using hc)
    | acquire ip =>
      rw [hm] at h
      simp only at h
      split at h
      · rename_i hc
        cases h
        exact StepKind.send ip hm hc
      · exact absurd h (by simp)
    | spawn ip =>
      rw [hm] at h
      cases h
      exact StepKind.go ip hm
    | wait =>
      rw [hm] at h
      simp only at h
      split at h
      · rename_i hc
        cases h
        exact StepKind.waited hm hc
      · exact absurd h (by simp)
    | exited =>
      rw [hm] at h
      exact absurd h (by simp)
  | unit i =>
    simp only [step, stepUnit] at h
    cases hu : s.units[i]? with
    | none => rw [hu] at h; exact absurd h (by simp)
    | some u =>
      rw [hu] at h
      simp only at h
      cases hpc : u.pc with
      | run k =>
        rw [hpc] at h
        simp only at h
        cases hd : (unitDomains f)[k]? with
        | some d =>
          rw [hd] at h
          cases h
          exact StepKind.query i u k d hu hpc hd
        | none =>
          rw [hd] at h
          simp only at h
          split at h
          · rename_i hc
            cases h
            exact StepKind.receive i u k hu hpc hd hc
          · exact absurd h (by simp)
      | released =>
        rw [hpc] at h
        cases h
        exact StepKind.done i u hu hpc
      | finished =>
        rw [hpc] at h
        exact absurd h (by simp)

theorem count_of_reachable {env : Env} {f : Flags} {s : State} (h : Reachable env f s) :
    s.world.rows.length = s.world.successes env := by
  induction h with
  | init h0 =>
    obtain ⟨ip, ipnet, _, rfl⟩ := init_eq h0
    rfl
  | step a _ hst ih =>
    cases stepKind_of_step hst with
    | guardTrue ip _ _ => exact ih
    | guardFalse ip _ _ => exact ih
    | send ip _ _ => exact ih
    | go ip _ => exact ih
    | waited _ _ => exact ih
    | query i u k d _ _ _ => exact perform_count env _ u.ip d ih
    | receive i u k _ _ _ _ => exact ih
    | done i u _ _ => exact ih

theorem flatMap_set_perm {α β : Type} (g : α → List β) (l : List α) (i : Nat) (u v : α)
    (R : List β) (h : l[i]? = some u) (hg : g v = g u ++ R) :
    ((l.set i v).flatMap g).Perm (l.flatMap g ++ R) := by
  induction l generalizing i with
  | nil => simp at h
  | cons x xs ih =>
    cases i with
    | zero =>
      simp only [List.getElem?_cons_zero, Option.some.injEq] at h
      subst h
      simp only [List.set_cons_zero, List.flatMap_cons, hg, List.append_assoc]
      exact List.Perm.append_left _ List.perm_append_comm
    | succ i =>
      simp only [List.getElem?_cons_succ] at h
      simp only [List.set_cons_succ, List.flatMap_cons, List.append_assoc]
      exact List.Perm.append_left _ (ih i h)

theorem unitRows_step (env : Env) (f : Flags) (u : UnitState) (k : Nat) (d : String)
    (hpc : u.pc = UnitPc.run k) (hd : (unitDomains f)[k]? = some d) (r : Nat) :
    unitRows env f { ip := u.ip, pc := UnitPc.run (k + 1), receives := r }
      = unitRows env f u ++ rowsOf env u.ip d := by
  simp only [unitRows, progress, hpc, List.take_succ, hd, Option.toList, List.flatMap_append,
    List.flatMap_cons, List.flatMap_nil, List.append_nil]

theorem rows_perm_of_reachable {env : Env} {f : Flags} {s : State} (h : Reachable env f s) :
    (s.world.rows.map DnsQuery.core).Perm (s.units.flatMap (unitRows env f)) := by
  induction h with
  | init h0 =>
    obtain ⟨ip, ipnet, _, rfl⟩ := init_eq h0
    exact List.Perm.refl _
  | @step s t a hr hst ih =>
    have hok := unitOk_of_reachable hr
    cases stepKind_of_step hst with
    | guardTrue ip _ _ => exact ih
    | guardFalse ip _ _ => exact ih
    | send ip _ _ => exact ih
    | go ip _ =>
      simp only [List.flatMap_append, List.flatMap_cons, List.flatMap_nil, List.append_nil]
      have : unitRows env f { ip := ip, pc := UnitPc.run 0, receives := 0 } = [] := by
        simp [unitRows, progress]
      rw [this, List.append_nil]
      exact ih
    | waited _ _ => exact ih
    | query i u k d hu hpc hd =>
      simp only
      rw [perform_rows]
      refine List.Perm.trans (List.Perm.append_right _ ih) (List.Perm.symm ?_)
      exact flatMap_set_perm _ _ i u _ _ hu (unitRows_step env f u k d hpc hd _)
    | receive i u k hu hpc hd _ =>
      simp only
      have hk := hok u (List.getElem?_mem hu)
      simp only [UnitOk, hpc] at hk
      have hlen : (unitDomains f).length ≤ k := by
        by_contra hc
        rw [List.getElem?_eq_none_iff] at hd
        omega
      have e : unitRows env f { ip := u.ip, pc := UnitPc.released, receives := u.receives + 1 }
          = unitRows env f u ++ [] := by
        simp only [unitRows, progress, hpc, List.append_nil]
        congr 2
        omega
      have := flatMap_set_perm _ _ i u _ _ hu e
      rw [List.append_nil] at this
      exact ih.trans this.symm
    | done i u hu hpc =>
      simp only
      have e : unitRows env f { ip := u.ip, pc := UnitPc.finished, receives := u.receives }
          = unitRows env f u ++ [] := by
        simp only [unitRows, progress, hpc, List.append_nil]
      have := flatMap_set_perm _ _ i u _ _ hu e
      rw [List.append_nil] at this
      exact ih.trans this.symm

/-! ## Progress and termination of the run -/

theorem scanLoop_some (net : IPNet) :
    ∀ (fuel : Nat) (ip : IP) (L : List IP), scanLoop net fuel ip = some L →
      Contains net (incrementIP^[L.length] ip) = false ∧
        (∀ j < L.length, Contains net (incrementIP^[j] ip) = true) ∧
        L = (List.range L.length).map (fun j => incrementIP^[j] ip) := by
  intro fuel
  induction fuel with
  | zero => intro ip L h; simp [scanLoop] at h
  | succ n ih =>
    intro ip L h
    simp only [scanLoop] at h
    by_cases hc : Contains net ip = true
    · rw [if_pos hc] at h
      cases hr : scanLoop net n (incrementIP ip) with
      | none => rw [hr] at h; simp at h
      | some L1 =>
        rw [hr] at h
        simp only [Option.map_some', Option.some.injEq] at h
        subst h
        obtain ⟨h1, h2, h3⟩ := ih (incrementIP ip) L1 hr
        refine ⟨?_, ?_, ?_⟩
        · rw [List.length_cons, Function.iterate_succ_apply]; exact h1
        · intro j hj
          cases j with
          | zero => exact hc
          | succ j =>
            rw [Function.iterate_succ_apply]
            exact h2 j (by simpa using hj)
        · rw [List.length_cons, List.range_succ_eq_map, List.map_cons, List.map_map]
          congr 1
    · rw [if_neg hc] at h
      simp only [Option.some.injEq] at h
      subst h
      exact ⟨by simpa using hc, by intro j hj; simp at hj, rfl⟩

theorem scan_eq_scanLoop {f : Flags} {ip0 : IP} {net : IPNet}
    (hp : ParseCIDR f.addr f.bits = some (ip0, net)) (fuel : Nat) :
    scan f.addr f.bits fuel = scanLoop net fuel (Mask ip0 net.Mask) := by
  simp only [scan, hp]

/-- When `main` is past the loop, the goroutines started hold exactly the
addresses the scan loop enumerates. -/
theorem scan_of_past_loop {env : Env} {f : Flags} {s : State} (h : Reachable env f s)
    (hm : s.main = MainPc.wait ∨ s.main = MainPc.exited) (fuel : Nat)
    (hf : s.units.length < fuel) :
    scan f.addr f.bits fuel = some (s.units.map (fun u => u.ip)) := by
  obtain ⟨ip0, hp, h1, h2, h3⟩ := scanned_of_reachable h
  rw [scan_eq_scanLoop hp, h1]
  refine scanLoop_run s.ipnet s.units.length _ h2 ?_ fuel hf
  rcases hm with hm | hm <;> rw [hm] at h3 <;> exact h3

theorem unit_can_step {env : Env} {f : Flags} {s : State} (h : Reachable env f s) {i : Nat}
    {u : UnitState} (hu : s.units[i]? = some u) (hpc : u.pc ≠ UnitPc.finished) :
    ∃ t, step env f s (Action.unit i) = some t := by
  obtain ⟨h1, _, _, _⟩ := balanced_of_reachable h
  simp only [step, stepUnit, hu]
  cases hk : u.pc with
  | run k =>
    simp only
    cases hd : (unitDomains f)[k]? with
    | some d => exact ⟨_, rfl⟩
    | none =>
      have hpos : 0 < s.units.countP holdsSlot :=
        List.countP_pos_iff.2 ⟨u, List.getElem?_mem hu, by simp [holdsSlot, hk]⟩
      have hsem : 0 < s.sem := by rw [h1, admitted]; omega
      simp only [hsem, if_true]
      exact ⟨_, rfl⟩
  | released => exact ⟨_, rfl⟩
  | finished => exact absurd hk hpc

theorem exists_index_of_countP {α : Type} {p : α → Bool} {l : List α} (h : 0 < l.countP p) :
    ∃ (i : Nat) (u : α), l[i]? = some u ∧ p u = true := by
  obtain ⟨u, hu, hp⟩ := List.countP_pos_iff.1 h
  obtain ⟨i, hi, hget⟩ := List.mem_iff_getElem.1 hu
  exact ⟨i, u, by rw [List.getElem?_eq_getElem hi, hget], hp⟩

/-- With a concurrency limit of at least one the run never blocks: while `main`
has not returned, some step can be taken. -/
theorem can_step {env : Env} {f : Flags} {s : State} (hc : 1 ≤ f.concurrent)
    (h : Reachable env f s) (hne : s.main ≠ MainPc.exited) :
    ∃ a t, step env f s a = some t := by
  obtain ⟨h1, h2, h3, _⟩ := balanced_of_reachable h
  cases hm : s.main with
  | loopHead ip =>
    refine ⟨Action.main, ?_⟩
    simp only [step, stepMain, hm]
    split <;> exact ⟨_, rfl⟩
  | acquire ip =>
    by_cases hlt : s.sem < f.concurrent
    · refine ⟨Action.main, ?_⟩
      simp only [step, stepMain, hm, hlt, if_true]
      exact ⟨_, rfl⟩
    · have hpos : 0 < s.units.countP holdsSlot := by
        rw [admitted, hm] at h1
        simp only [mainSlot] at h1
        omega
      obtain ⟨i, u, hu, hp⟩ := exists_index_of_countP hpos
      have hpc : u.pc ≠ UnitPc.finished := by
        intro hfin
        simp [holdsSlot, hfin] at hp
      obtain ⟨t, ht⟩ := unit_can_step h hu hpc
      exact ⟨Action.unit i, t, ht⟩
  | spawn ip =>
    refine ⟨Action.main, ?_⟩
    simp only [step, stepMain, hm]
    exact ⟨_, rfl⟩
  | wait =>
    by_cases hw : s.wg = 0
    · refine ⟨Action.main, ?_⟩
      simp only [step, stepMain, hm, hw, if_true]
      exact ⟨_, rfl⟩
    · have hpos : 0 < s.units.countP unfinished := by
        rw [hm] at h3
        simp only [mainAdded] at h3
        omega
      obtain ⟨i, u, hu, hp⟩ := exists_index_of_countP hpos
      have hpc : u.pc ≠ UnitPc.finished := by
        intro hfin
        simp [unfinished, hfin] at hp
      obtain ⟨t, ht⟩ := unit_can_step h hu hpc
      exact ⟨Action.unit i, t, ht⟩
  | exited => exact absurd hm hne

theorem sum_map_set {α : Type} (w : α → Nat) (l : List α) (i : Nat) (u v : α)
    (h : l[i]? = some u) :
    ((l.set i v).map w).sum + w u = (l.map w).sum + w v := by
  induction l generalizing i with
  | nil => simp at h
  | cons x xs ih =>
    cases i with
    | zero =>
      simp only [List.getElem?_cons_zero, Option.some.injEq] at h
      subst h
      simp only [List.set_cons_zero, List.map_cons, List.sum_cons]
      omega
    | succ i =>
      simp only [List.getElem?_cons_succ] at h
      have := ih i h
      simp only [List.set_cons_succ, List.map_cons, List.sum_cons]
      omega

theorem stepsLeft_decreases {env : Env} {f : Flags} {s t : State} {a : Action} {fuel : Nat}
    {L : List IP} (hscan : scan f.addr f.bits fuel = some L) (h : Reachable env f s)
    (hst : step env f s a = some t) :
    stepsLeft f L.length t < stepsLeft f L.length s := by
  obtain ⟨ip0, hp, h1, h2, h3⟩ := scanned_of_reachable h
  rw [scan_eq_scanLoop hp] at hscan
  obtain ⟨hL1, hL2, _⟩ := scanLoop_some _ _ _ _ hscan
  cases stepKind_of_step hst with
  | guardTrue ip hm _ => simp only [stepsLeft, hm, mainWeight]; omega
  | guardFalse ip hm _ => simp only [stepsLeft, hm, mainWeight]; omega
  | send ip hm _ => simp only [stepsLeft, hm, mainWeight]; omega
  | go ip hm =>
    rw [hm] at h3
    have hlt : s.units.length < L.length := by
      by_contra hge
      have hle : L.length ≤ s.units.length := by omega
      rcases Nat.lt_or_eq_of_le hle with hlt | heq
      · have := h2 _ hlt
        rw [hL1] at this
        exact absurd this (by simp)
      · rw [heq, ← h3.1, h3.2] at hL1
        exact absurd hL1 (by simp)
    simp only [stepsLeft, hm, mainWeight, List.length_append, List.length_singleton,
      List.map_append, List.map_cons, List.map_nil, List.sum_append, List.sum_cons,
      List.sum_nil, unitWeight]
    obtain ⟨m, hm2⟩ : ∃ m, L.length - s.units.length = m + 1 :=
      ⟨L.length - s.units.length - 1, by omega⟩
    have e2 : L.length - (s.units.length + 1) = m := by omega
    rw [hm2, e2, Nat.add_mul]
    omega
  | waited hm _ => simp only [stepsLeft, hm, mainWeight]; omega
  | query i u k d hu hpc hd =>
    have hk : k < (unitDomains f).length := (List.getElem?_eq_some.1 hd).1
    have := sum_map_set (unitWeight f) s.units i u
      { ip := u.ip, pc := UnitPc.run (k + 1), receives := u.receives } hu
    simp only [unitWeight, hpc] at this
    simp only [stepsLeft, List.length_set]
    omega
  | receive i u k hu hpc _ _ =>
    have := sum_map_set (unitWeight f) s.units i u
      { ip := u.ip, pc := UnitPc.released, receives := u.receives + 1 } hu
    simp only [unitWeight, hpc] at this
    simp only [stepsLeft, List.length_set]
    omega
  | done i u hu hpc =>
    have := sum_map_set (unitWeight f) s.units i u
      { ip := u.ip, pc := UnitPc.finished, receives := u.receives } hu
    simp only [unitWeight, hpc] at this
    simp only [stepsLeft, List.length_set]
    omega

/-- When the scan loop enumerates finitely many addresses and the concurrency
limit is at least one, every run can be continued to the return of
`wg.Wait()`. -/
theorem reaches_exit {env : Env} {f : Flags} {fuel : Nat} {L : List IP}
    (hc : 1 ≤ f.concurrent) (hscan : scan f.addr f.bits fuel = some L) :
    ∀ (n : Nat) (s : State), Reachable env f s → stepsLeft f L.length s ≤ n →
      ∃ t, Reachable env f t ∧ t.main = MainPc.exited := by
  intro n
  induction n with
  | zero =>
    intro s h hle
    by_cases hm : s.main = MainPc.exited
    · exact ⟨s, h, hm⟩
    · obtain ⟨a, t, ht⟩ := can_step hc h hm
      have := stepsLeft_decreases hscan h ht
      omega
  | succ n ih =>
    intro s h hle
    by_cases hm : s.main = MainPc.exited
    · exact ⟨s, h, hm⟩
    · obtain ⟨a, t, ht⟩ := can_step hc h hm
      have := stepsLeft_decreases hscan h ht
      exact ih t (Reachable.step a h ht) (by omega)

/-! ## The work unit as a whole -/

theorem worker_eq_foldl (env : Env) (f : Flags) (w : World) (ip : IP) :
    worker env f w ip = (unitDomains f).foldl (fun acc d => performDnsQuery env acc ip d) w := by
  simp only [worker, unitDomains, List.foldl_cons]
  split <;> rfl

theorem foldl_trace (env : Env) (ip : IP) (doms : List String) :
    ∀ w : World,
      (doms.foldl (fun acc d => performDnsQuery env acc ip d) w).trace.map Event.core
        = w.trace.map Event.core ++ doms.flatMap (eventsOf env ip) := by
  induction doms with
  | nil => intro w; simp
  | cons d ds ih =>
    intro w
    rw [List.foldl_cons, ih, perform_trace, List.flatMap_cons, List.append_assoc]

theorem foldl_rows (env : Env) (ip : IP) (doms : List String) :
    ∀ w : World,
      (doms.foldl (fun acc d => performDnsQuery env acc ip d) w).rows.map DnsQuery.core
        = w.rows.map DnsQuery.core ++ doms.flatMap (rowsOf env ip) := by
  induction doms with
  | nil => intro w; simp
  | cons d ds ih =>
    intro w
    rw [List.foldl_cons, ih, perform_rows, List.flatMap_cons, List.append_assoc]

theorem foldl_exchanges (env : Env) (ip : IP) (doms : List String) :
    ∀ w : World,
      (doms.foldl (fun acc d => performDnsQuery env acc ip d) w).exchanges
        = w.exchanges ++ doms.map (fun d => (questionFor d, serverOf env ip)) := by
  induction doms with
  | nil => intro w; simp
  | cons d ds ih =>
    intro w
    rw [List.foldl_cons, ih, perform_exchanges, List.map_cons, List.append_assoc]
    rfl

theorem rowsOf_domains (env : Env) (ip : IP) (doms : List String) :
    (doms.flatMap (rowsOf env ip)).map (fun r => r.Domain) = doms.filter (succeeds env ip) := by
  induction doms with
  | nil => rfl
  | cons d ds ih =>
    rw [List.flatMap_cons, List.map_append, ih, List.filter_cons]
    unfold rowsOf succeeds
    split <;> simp_all [rowFor]

/-- Claim C7: the body of a work unit calls `performDnsQuery` for the primary
domain first and then once for each additional domain, in the configured
order, whatever the outcomes: its calls (time stamps apart) are, domain after
domain, the exchange followed by the insert when the exchange succeeded, so
each record is handed to the sink before the next query starts, a failed
exchange is followed by the next query, and the domains of the records are the
domains whose exchange succeeded, in the same order; with `-domains
a.com,b.com`, primary `example.com` and a client that always answers, the
records are for `example.com`, `a.com`, `b.com`. -/
theorem worker_queries_in_order (env : Env) (f : Flags) (w : World) (ip : IP) :
    unitDomains f = f.domain :: (if f.domains ≠ "" then Split f.domains (Char.ofNat 44) else []) ∧
      (worker env f w ip).trace.map Event.core
        = w.trace.map Event.core ++ (unitDomains f).flatMap (eventsOf env ip) ∧
      (worker env f w ip).exchanges
        = w.exchanges ++ (unitDomains f).map (fun d => (questionFor d, serverOf env ip)) ∧
      (worker env f w ip).rows.map (fun r => r.Domain)
        = w.rows.map (fun r => r.Domain) ++ (unitDomains f).filter (succeeds env ip) ∧
      unitDomains (scenario "a.com,b.com") = ["example.com", "a.com", "b.com"] ∧
      ∀ now textOther, ((worker (stubSucceeds now textOther) (scenario "a.com,b.com")
          { trace := [], clock := 0 } [10, 0, 0, 0]).rows.map (fun r => r.Domain))
        = ["example.com", "a.com", "b.com"] := by
  have hrows : ∀ (e : Env) (g : Flags) (v : World) (a : IP),
      (worker e g v a).rows.map (fun r => r.Domain)
        = v.rows.map (fun r => r.Domain) ++ (unitDomains g).filter (succeeds e a) := by
    intro e g v a
    have h := congrArg (List.map (fun r : DnsQuery => r.Domain))
      (foldl_rows e a (unitDomains g) v)
    rw [← worker_eq_foldl, List.map_append, rowsOf_domains, List.map_map, List.map_map] at h
    exact h
  refine ⟨rfl, ?_, ?_, hrows env f w ip, by decide, ?_⟩
  · rw [worker_eq_foldl, foldl_trace]
  · rw [worker_eq_foldl, foldl_exchanges]
  · intro now textOther
    rw [hrows]
    rfl

theorem reachable_of_runActions {env : Env} {f : Flags} (acts : List Action) :
    ∀ {s t : State}, Reachable env f s → runActions env f acts s = some t → Reachable env f t := by
  induction acts with
  | nil =>
    intro s t h hr
    simp only [runActions, Option.some.injEq] at hr
    subst hr
    exact h
  | cons a rest ih =>
    intro s t h hr
    simp only [runActions] at hr
    cases hst : step env f s a with
    | none => rw [hst] at hr; exact absurd hr (by simp)
    | some m =>
      rw [hst] at hr
      exact ih (Reachable.step a h hst) hr

theorem scanLoop_length_lt (net : IPNet) :
    ∀ (fuel : Nat) (ip : IP) (L : List IP), scanLoop net fuel ip = some L → L.length < fuel := by
  intro fuel
  induction fuel with
  | zero => intro ip L h; simp [scanLoop] at h
  | succ n ih =>
    intro ip L h
    simp only [scanLoop] at h
    by_cases hc : Contains net ip = true
    · rw [if_pos hc] at h
      cases hr : scanLoop net n (incrementIP ip) with
      | none => rw [hr] at h; simp at h
      | some L1 =>
        rw [hr] at h
        simp only [Option.map_some', Option.some.injEq] at h
        subst h
        have := ih _ _ hr
        simp only [List.length_cons]
        omega
    · rw [if_neg hc] at h
      simp only [Option.some.injEq] at h
      subst h
      simp

/-- More fuel does not change the result of the scan loop. -/
theorem scanLoop_mono {net : IPNet} {fuel : Nat} {ip : IP} {L : List IP}
    (h : scanLoop net fuel ip = some L) {fuel2 : Nat} (hf : fuel ≤ fuel2) :
    scanLoop net fuel2 ip = some L := by
  obtain ⟨h1, h2, h3⟩ := scanLoop_some net fuel ip L h
  have hlt := scanLoop_length_lt net fuel ip L h
  rw [scanLoop_run net L.length ip h2 h1 fuel2 (by omega), ← h3]

/-- The goroutines started are the first addresses of the scan, whatever the
state of the run. -/
theorem units_of_scan {env : Env} {f : Flags} {s : State} (h : Reachable env f s) {fuel : Nat}
    {L : List IP} (hscan : scan f.addr f.bits fuel = some L) :
    s.units.length ≤ L.length ∧
      ((s.main = MainPc.wait ∨ s.main = MainPc.exited) → s.units.map (fun u => u.ip) = L) := by
  obtain ⟨ip0, hp, h1, h2, h3⟩ := scanned_of_reachable h
  have hscan2 := hscan
  rw [scan_eq_scanLoop hp] at hscan2
  obtain ⟨hL1, hL2, _⟩ := scanLoop_some _ _ _ _ hscan2
  constructor
  · by_contra hc
    have := h2 L.length (by omega)
    rw [hL1] at this
    exact absurd this (by simp)
  · intro hm
    have e1 := scan_of_past_loop h hm (max fuel (s.units.length + 1)) (by omega)
    rw [scan_eq_scanLoop hp] at e1
    have e2 := scanLoop_mono hscan2 (le_max_left fuel (s.units.length + 1))
    rw [e1] at e2
    exact Option.some.inj e2

theorem no_step_after_exit {env : Env} {f : Flags} {s : State} (h : Reachable env f s)
    (hm : s.main = MainPc.exited) (a : Action) : step env f s a = none := by
  obtain ⟨_, _, _, h4⟩ := balanced_of_reachable h
  cases a with
  | main => simp [step, stepMain, hm]
  | unit i =>
    simp only [step, stepUnit]
    cases hu : s.units[i]? with
    | none => rfl
    | some u =>
      have := h4 hm u (List.getElem?_mem hu)
      simp [this]

theorem receives_of_reachable {env : Env} {f : Flags} {s : State} (h : Reachable env f s) :
    ∀ u ∈ s.units, u.receives = if holdsSlot u then 0 else 1 := by
  intro u hu
  have := unitOk_of_reachable h u hu
  unfold UnitOk at this
  cases hpc : u.pc <;> simp_all [holdsSlot]

/-- Claim C5: in every state of every run the number of work units that were
admitted through the semaphore and have not yet released their slot is the
number of tokens in the channel, and never exceeds the concurrency limit; the
goroutines that are executing with their slot held are among them. -/
theorem admitted_le_limit (env : Env) (f : Flags) (s : State) (h : Reachable env f s) :
    running s ≤ admitted s ∧ admitted s = s.sem ∧ admitted s ≤ f.concurrent := by
  obtain ⟨h1, h2, _, _⟩ := balanced_of_reachable h
  refine ⟨by simp only [running, admitted]; omega, h1.symm, by omega⟩

/-- Claim C6: in every state of every run the tokens in the channel are exactly
the slots of the admitted units that have not released yet; every goroutine has
received from the semaphore not at all while it holds its slot and exactly once
afterwards; a goroutine that has not finished can always take its next step,
whatever the outcomes of its queries (so it reaches its release); and once
`wg.Wait()` has returned, the goroutines are those of all scanned addresses,
each of them has finished and released exactly once, no token is left, and no
step (hence no insert) follows. -/
theorem slots_balanced (env : Env) (f : Flags) (s : State) (h : Reachable env f s) :
    s.sem = admitted s ∧
      (∀ u ∈ s.units, u.receives = if holdsSlot u then 0 else 1) ∧
      (∀ (i : Nat) (u : UnitState), s.units[i]? = some u → u.pc ≠ UnitPc.finished →
        ∃ t, step env f s (Action.unit i) = some t) ∧
      (s.main = MainPc.exited →
        (∀ fuel, s.units.length < fuel →
          scan f.addr f.bits fuel = some (s.units.map (fun u => u.ip))) ∧
        (∀ u ∈ s.units, u.pc = UnitPc.finished ∧ u.receives = 1) ∧
        s.sem = 0 ∧ s.wg = 0 ∧ ∀ a, step env f s a = none) := by
  obtain ⟨h1, h2, h3, h4⟩ := balanced_of_reachable h
  refine ⟨h1, receives_of_reachable h, fun i u hu hpc => unit_can_step h hu hpc, ?_⟩
  intro hm
  have hfin := h4 hm
  have hc1 : s.units.countP holdsSlot = 0 := by
    rw [List.countP_eq_zero]
    intro u hu
    simp [holdsSlot, hfin u hu]
  have hc2 : s.units.countP unfinished = 0 := by
    rw [List.countP_eq_zero]
    intro u hu
    simp [unfinished, hfin u hu]
  refine ⟨fun fuel hf => scan_of_past_loop h (Or.inr hm) fuel hf, ?_, ?_, ?_,
    no_step_after_exit h hm⟩
  · intro u hu
    refine ⟨hfin u hu, ?_⟩
    have := receives_of_reachable h u hu
    simpa [holdsSlot, hfin u hu] using this
  · rw [h1, admitted, hc1, hm]; rfl
  · rw [h3, hc2, hm]; rfl

/-! ## The records of a run -/

theorem foldl_rr_data (rr : List RR) :
    ∀ acc : String, (rr.foldl (fun sb r => sb ++ (r ++ "\n")) acc).data
      = acc.data ++ rr.flatMap (fun r => r.data ++ "\n".data) := by
  induction rr with
  | nil => intro acc; simp
  | cons r rs ih =>
    intro acc
    rw [List.foldl_cons, ih, List.flatMap_cons]
    simp [String.data_append]

/-- The answer text contains the text of every answer record. -/
theorem answer_contains (rr : List RR) (r : RR) (h : r ∈ rr) :
    r.data <:+: (dnsRRToString rr).data := by
  unfold dnsRRToString
  rw [foldl_rr_data]
  obtain ⟨l1, l2, rfl⟩ := List.append_of_mem h
  simp only [List.flatMap_append, List.flatMap_cons]
  refine ⟨"".data ++ l1.flatMap (fun r => r.data ++ "\n".data),
    "\n".data ++ l2.flatMap (fun r => r.data ++ "\n".data), ?_⟩
  simp

theorem unitRows_finished (env : Env) (f : Flags) (u : UnitState) (h : u.pc = UnitPc.finished) :
    unitRows env f u = (unitDomains f).flatMap (rowsOf env u.ip) := by
  simp [unitRows, progress, h]

theorem flatMap_congr_mem {α β : Type} {l : List α} {g1 g2 : α → List β}
    (h : ∀ x ∈ l, g1 x = g2 x) : l.flatMap g1 = l.flatMap g2 := by
  induction l with
  | nil => rfl
  | cons x xs ih =>
    rw [List.flatMap_cons, List.flatMap_cons, h x (List.mem_cons_self _ _),
      ih (fun y hy => h y (List.mem_cons_of_mem _ hy))]

theorem flatMap_map_ip {β : Type} (l : List UnitState) (g : IP → List β) :
    (l.map (fun u => u.ip)).flatMap g = l.flatMap (fun u => g u.ip) := by
  induction l with
  | nil => rfl
  | cons x xs ih => simp [List.flatMap_cons, ih]

/-- After `wg.Wait()` has returned the rows handed to the insert statement are,
up to their order and time stamps, the rows of all queries of all goroutines. -/
theorem rows_after_exit {env : Env} {f : Flags} {s : State} (h : Reachable env f s)
    (hm : s.main = MainPc.exited) :
    (s.world.rows.map DnsQuery.core).Perm
      ((s.units.map (fun u => u.ip)).flatMap
        (fun ip => (unitDomains f).flatMap (rowsOf env ip))) := by
  obtain ⟨_, _, _, h4⟩ := balanced_of_reachable h
  have := rows_perm_of_reachable h
  rw [flatMap_congr_mem (fun u hu => unitRows_finished env f u (h4 hm u hu))] at this
  rw [flatMap_map_ip]
  exact this

theorem rowsOf_of_succeeds {env : Env} (hs : ∀ q a, (env.Exchange q a).isSome = true) (ip : IP)
    (d : String) :
    rowsOf env ip d
      = [rowFor env ip d ((env.Exchange (questionFor d) (serverOf env ip)).getD [])] := by
  unfold rowsOf
  have := hs (questionFor d) (serverOf env ip)
  cases hx : env.Exchange (questionFor d) (serverOf env ip) with
  | none => rw [hx] at this; simp at this
  | some ans => rfl

theorem flatMap_singleton_map {α β : Type} (l : List α) (g : α → β) :
    l.flatMap (fun x => [g x]) = l.map g := by
  induction l with
  | nil => rfl
  | cons x xs ih => simp [List.flatMap_cons, ih]

theorem rows_of_answering {env : Env} {f : Flags} {s : State}
    (hs : ∀ q a, (env.Exchange q a).isSome = true) (h : Reachable env f s)
    (hm : s.main = MainPc.exited) :
    (s.world.rows.map DnsQuery.core).Perm
      ((s.units.map (fun u => u.ip)).flatMap (fun ip => (unitDomains f).map (fun d =>
        rowFor env ip d ((env.Exchange (questionFor d) (serverOf env ip)).getD [])))) := by
  have := rows_after_exit h hm
  have e : (fun ip => (unitDomains f).flatMap (rowsOf env ip))
      = (fun ip => (unitDomains f).map (fun d =>
        rowFor env ip d ((env.Exchange (questionFor d) (serverOf env ip)).getD []))) := by
    funext ip
    rw [← flatMap_singleton_map]
    exact flatMap_congr_mem (fun d _ => rowsOf_of_succeeds hs ip d)
  rw [e] at this
  exact this

theorem scenario_scan (domains : String) :
    scan (scenario domains).addr (scenario domains).bits 5 = some scenarioAddresses := by
  show scan [10, 0, 0, 0] 30 5 = some scenarioAddresses
  decide

/-- Claim C8, as stated, fails: in the scenario the question text of the
record is `example.com. A`, with the dot of the fully qualified name, not
`example.com A`. -/
theorem question_text_is_fully_qualified :
    ¬ (∀ r ∈ (worker (stubSucceeds (fun k => k) (fun _ => "")) (scenario "")
        { trace := [], clock := 0 } [10, 0, 0, 0]).rows, r.Query = "example.com A") := by
  decide

/-- Claim C8, amended: with a client that always answers, when the run is over
the rows recorded are, up to order and time stamps, one row for every scanned
address and every queried domain, whose domain field is the configured domain,
whose question text is `dns.Fqdn(domain)`, a space and the query type, and
whose answer text contains the text of every answer record. `dns.Fqdn` gives
the domain itself when `dns.IsFqdn` holds of it and the domain followed by a
dot otherwise (`example.com` gets the dot, `example.com.` does not; `IsFqdn`
counts bytes, so a name made of a two-byte character, a backslash and a dot is
fully qualified, while `a`, backslash, dot is not and gets a second dot). For
`10.0.0.0/30`, primary domain `example.com`, no additional domains,
concurrency 2 and answer `1.2.3.4` exactly 4 rows are recorded, one for each
of `10.0.0.0` .. `10.0.0.3`, each with question `example.com. A` and answer
text `1.2.3.4` and a newline, and every run can be completed. -/
theorem records_of_answering_client (env : Env) (f : Flags) (s : State)
    (hs : ∀ q a, (env.Exchange q a).isSome = true) (h : Reachable env f s)
    (hm : s.main = MainPc.exited) :
    (s.world.rows.map DnsQuery.core).Perm
        ((s.units.map (fun u => u.ip)).flatMap (fun ip => (unitDomains f).map (fun d =>
          rowFor env ip d ((env.Exchange (questionFor d) (serverOf env ip)).getD [])))) ∧
      (∀ fuel, s.units.length < fuel →
        scan f.addr f.bits fuel = some (s.units.map (fun u => u.ip))) ∧
      (∀ (ip : IP) (d : String) (answers : List RR),
        (rowFor env ip d answers).Domain = d ∧
          (rowFor env ip d answers).Query = Fqdn d ++ " " ++ TypeToString TypeA ∧
          ∀ r ∈ answers, r.data <:+: (rowFor env ip d answers).Answer.data) ∧
      (∀ d : String, Fqdn d = if IsFqdn d then d else d ++ ".") ∧
      Fqdn "example.com" = "example.com." ∧
      Fqdn "example.com." = "example.com." ∧
      Fqdn (String.mk [Char.ofNat 233, Char.ofNat 92, Char.ofNat 46])
        = String.mk [Char.ofNat 233, Char.ofNat 92, Char.ofNat 46] ∧
      Fqdn (String.mk [Char.ofNat 97, Char.ofNat 92, Char.ofNat 46])
        = String.mk [Char.ofNat 97, Char.ofNat 92, Char.ofNat 46, Char.ofNat 46] ∧
      (∀ (now : Nat → Nat) (textOther : IP → String) (t : State),
        Reachable (stubSucceeds now textOther) (scenario "") t → t.main = MainPc.exited →
          t.world.rows.length = 4 ∧ (t.world.rows.map DnsQuery.core).Perm scenarioRows) ∧
      (∀ (now : Nat → Nat) (textOther : IP → String),
        ∃ t, Reachable (stubSucceeds now textOther) (scenario "") t ∧
          t.main = MainPc.exited) := by
  refine ⟨rows_of_answering hs h hm, fun fuel hf => scan_of_past_loop h (Or.inr hm) fuel hf,
    fun ip d answers => ⟨rfl, rfl, fun r hr => answer_contains answers r hr⟩,
    fun d => rfl, by decide, by decide, by decide, by decide, ?_, ?_⟩
  · intro now textOther t ht htm
    have hperm := @rows_of_answering (stubSucceeds now textOther) (scenario "") t (fun _ _ => rfl) ht htm
    rw [(units_of_scan ht (scenario_scan "")).2 (Or.inr htm)] at hperm
    have e : (scenarioAddresses.flatMap (fun ip => (unitDomains (scenario "")).map (fun d =>
        rowFor (stubSucceeds now textOther) ip d
          (((stubSucceeds now textOther).Exchange (questionFor d)
            (serverOf (stubSucceeds now textOther) ip)).getD [])))) = scenarioRows := by
      rfl
    rw [e] at hperm
    refine ⟨?_, hperm⟩
    have := hperm.length_eq
    simpa [scenarioRows] using this
  · intro now textOther
    obtain ⟨s0, hs0⟩ : ∃ s0, init (scenario "") = some s0 := ⟨_, rfl⟩
    exact reaches_exit (by decide) (scenario_scan "") _ s0 (Reachable.init hs0) (le_refl _)

/-- After `wg.Wait()` has returned the domains of the recorded rows are, up to
order, the domains whose exchange succeeded, for every scanned address. -/
theorem domains_after_exit {env : Env} {f : Flags} {s : State} (h : Reachable env f s)
    (hm : s.main = MainPc.exited) :
    (s.world.rows.map (fun r => r.Domain)).Perm
      ((s.units.map (fun u => u.ip)).flatMap
        (fun ip => (unitDomains f).filter (succeeds env ip))) := by
  have hp := (rows_after_exit h hm).map (fun r : DnsQuery => r.Domain)
  rw [List.map_map, List.map_flatMap] at hp
  have e : (fun ip => ((unitDomains f).flatMap (rowsOf env ip)).map (fun r : DnsQuery => r.Domain))
      = fun ip => (unitDomains f).filter (succeeds env ip) := by
    funext ip
    exact rowsOf_domains env ip (unitDomains f)
  rw [e] at hp
  exact hp

theorem perform_of_fail {env : Env} {w : World} {ip : IP} {d : String}
    (h : env.Exchange (questionFor d) (serverOf env ip) = none) :
    performDnsQuery env w ip d
      = { w with trace := w.trace ++ [Event.exchange (questionFor d) (serverOf env ip)] } := by
  simp only [questionFor, serverOf] at h
  simp only [performDnsQuery, SetQuestion, List.headD_cons, questionFor, serverOf]
  split
  · rfl
  · rename_i ans heq
    rw [h] at heq
    exact absurd heq (by simp)

/-- Claim C9: in every state of every run, so also when the run is over, the
number of recorded rows equals the number of exchanges that succeeded; when
the run is over that is the number of pairs of a scanned address and a queried
domain whose exchange succeeds; an exchange that fails only moves its goroutine
on to its next query (nothing else changes); with a
client for which every exchange times out, the run over `10.0.0.0/30` records
no row, never blocks before `wg.Wait()` has returned, takes a bounded number of
steps, and can always be completed. -/
theorem recorded_equals_successful (env : Env) (f : Flags) (s : State)
    (h : Reachable env f s) :
    s.world.rows.length = s.world.successes env ∧
      (s.main = MainPc.exited →
        s.world.rows.length = ((s.units.map (fun u => u.ip)).flatMap
          (fun ip => (unitDomains f).filter (succeeds env ip))).length) ∧
      (∀ (i : Nat) (u : UnitState) (k : Nat) (d : String), s.units[i]? = some u →
        u.pc = UnitPc.run k → (unitDomains f)[k]? = some d → succeeds env u.ip d = false →
        step env f s (Action.unit i) = some
          { s with units := s.units.set i { ip := u.ip, pc := UnitPc.run (k + 1), receives := u.receives },
                   world := { s.world with trace := s.world.trace ++
                     [Event.exchange (questionFor d) (serverOf env u.ip)] } }) ∧
      (∀ (now : Nat → Nat) (textOther : IP → String) (t : State),
        Reachable (stubTimesOut now textOther) (scenario "") t →
          t.world.rows = [] ∧
          (t.main ≠ MainPc.exited →
            ∃ a t2, step (stubTimesOut now textOther) (scenario "") t a = some t2) ∧
          (∀ a t2, step (stubTimesOut now textOther) (scenario "") t a = some t2 →
            stepsLeft (scenario "") 4 t2 < stepsLeft (scenario "") 4 t) ∧
          ∃ t2, Reachable (stubTimesOut now textOther) (scenario "") t2 ∧
            t2.main = MainPc.exited ∧ t2.world.rows = []) := by
  have hzero : ∀ (now : Nat → Nat) (textOther : IP → String) (t : State),
      Reachable (stubTimesOut now textOther) (scenario "") t → t.world.rows = [] := by
    intro now textOther t ht
    have := count_of_reachable ht
    rw [World.successes] at this
    have hc : t.world.exchanges.countP
        (fun qa => ((stubTimesOut now textOther).Exchange qa.1 qa.2).isSome) = 0 := by
      rw [List.countP_eq_zero]
      intro qa _
      simp [stubTimesOut]
    rw [hc] at this
    exact List.length_eq_zero.1 this
  refine ⟨count_of_reachable h, ?_, ?_, ?_⟩
  · intro hm
    have := (domains_after_exit h hm).length_eq
    rw [List.length_map] at this
    exact this
  · intro i u k d hu hpc hd hfail
    have hnone : env.Exchange (questionFor d) (serverOf env u.ip) = none := by
      cases hx : env.Exchange (questionFor d) (serverOf env u.ip) with
      | none => rfl
      | some ans => simp [succeeds, hx] at hfail
    simp only [step, stepUnit, hu, hpc, hd]
    congr 2
    exact perform_of_fail hnone
  · intro now textOther t ht
    refine ⟨hzero now textOther t ht, fun hne => can_step (by decide) ht hne, ?_, ?_⟩
    · intro a t2 hst
      exact stepsLeft_decreases (scenario_scan "") ht hst
    · obtain ⟨t2, h2, h3⟩ := reaches_exit (by decide) (scenario_scan "") _ t ht (le_refl _)
      exact ⟨t2, h2, h3, hzero now textOther t2 h2⟩

theorem init_scenario : init (scenario "") = some scenarioStart := by decide

theorem reachable_stateAtLimit : Reachable answeringEnv (scenario "") stateAtLimit :=
  reachable_of_runActions scheduleToLimit (Reachable.init init_scenario) (by decide)

theorem reachable_stateAtExit : Reachable answeringEnv (scenario "") stateAtExit :=
  reachable_of_runActions scheduleToExit (Reachable.init init_scenario) (by decide)

theorem reachable_stateAtExitFailing : Reachable failingEnv (scenario "") stateAtExitFailing :=
  reachable_of_runActions scheduleToExit (Reachable.init init_scenario) (by decide)

theorem admitted_le_limit_witness :
    Reachable answeringEnv (scenario "") stateAtLimit ∧
      (running stateAtLimit ≤ admitted stateAtLimit ∧ admitted stateAtLimit = stateAtLimit.sem ∧
        admitted stateAtLimit ≤ (scenario "").concurrent) :=
  ⟨reachable_stateAtLimit,
    admitted_le_limit answeringEnv (scenario "") stateAtLimit reachable_stateAtLimit⟩

theorem slots_balanced_witness :
    Reachable answeringEnv (scenario "") stateAtExit ∧ stateAtExit.main = MainPc.exited ∧
      stateAtExit.sem = admitted stateAtExit ∧ stateAtExit.sem = 0 ∧ stateAtExit.wg = 0 :=
  ⟨reachable_stateAtExit, rfl,
    (slots_balanced answeringEnv (scenario "") stateAtExit reachable_stateAtExit).1,
    ((slots_balanced answeringEnv (scenario "") stateAtExit reachable_stateAtExit).2.2.2 rfl).2.2.1,
    ((slots_balanced answeringEnv (scenario "") stateAtExit reachable_stateAtExit).2.2.2 rfl).2.2.2.1⟩

theorem records_of_answering_client_witness :
    (∀ q a, (answeringEnv.Exchange q a).isSome = true) ∧
      Reachable answeringEnv (scenario "") stateAtExit ∧ stateAtExit.main = MainPc.exited ∧
      (stateAtExit.world.rows.map DnsQuery.core).Perm
        ((stateAtExit.units.map (fun u => u.ip)).flatMap (fun ip =>
          (unitDomains (scenario "")).map (fun d => rowFor answeringEnv ip d
            ((answeringEnv.Exchange (questionFor d) (serverOf answeringEnv ip)).getD [])))) :=
  ⟨fun _ _ => rfl, reachable_stateAtExit, rfl,
    (records_of_answering_client answeringEnv (scenario "") stateAtExit (fun _ _ => rfl)
      reachable_stateAtExit rfl).1⟩

theorem recorded_equals_successful_witness :
    Reachable failingEnv (scenario "") stateAtExitFailing ∧
      stateAtExitFailing.world.rows.length = stateAtExitFailing.world.successes failingEnv :=
  ⟨reachable_stateAtExitFailing,
    (recorded_equals_successful failingEnv (scenario "") stateAtExitFailing
      reachable_stateAtExitFailing).1⟩

/-! ## Ranges on which the scan loop enumerates the whole network -/

/-- The loop over an interval of values: when the contained addresses are
exactly those with value in `[value start, value start + N)` and the interval
does not wrap onto itself, the loop visits the `N` addresses of the interval in
ascending order and stops. -/
theorem scanLoop_interval (net : IPNet) (start : IP) (N : Nat) (hs : IsBytes start)
    (hN : value start + N ≤ 256 ^ start.length)
    (hw : value start + N < 256 ^ start.length ∨ 0 < value start)
    (hC : ∀ a, IsBytes a → a.length = start.length →
      (Contains net a = true ↔ value start ≤ value a ∧ value a < value start + N)) :
    (∀ fuel, N < fuel →
        scanLoop net fuel start = some ((List.range N).map (fun k => incrementIP^[k] start))) ∧
      (∀ a, IsBytes a → a.length = start.length →
        (a ∈ (List.range N).map (fun k => incrementIP^[k] start) ↔ Contains net a = true)) ∧
      ((List.range N).map (fun k => incrementIP^[k] start)).Pairwise
        (fun x y => value x < value y) ∧
      ∀ k < N, value (incrementIP^[k] start) = value start + k := by
  have hval : ∀ k < N, value (incrementIP^[k] start) = value start + k :=
    fun k hk => iterate_value_lt hs (by omega)
  have hin : ∀ k < N, Contains net (incrementIP^[k] start) = true := by
    intro k hk
    refine (hC _ (iterate_isBytes k hs) (iterate_length k start)).2 ?_
    rw [hval k hk]
    omega
  have hout : Contains net (incrementIP^[N] start) = false := by
    rw [Bool.eq_false_iff]
    intro hc
    have h := (hC _ (iterate_isBytes N hs) (iterate_length N start)).1 hc
    rw [iterate_value N hs] at h
    rcases Nat.lt_or_eq_of_le hN with hlt | heq
    · rw [Nat.mod_eq_of_lt hlt] at h
      omega
    · rw [heq, Nat.mod_self] at h
      rcases hw with hw | hw
      · omega
      · omega
  refine ⟨fun fuel hf => scanLoop_run net N start hin hout fuel hf, ?_, ?_, hval⟩
  · intro a ha hla
    constructor
    · intro hmem
      rw [List.mem_map] at hmem
      obtain ⟨k, hk, rfl⟩ := hmem
      exact hin k (List.mem_range.1 hk)
    · intro hc
      obtain ⟨h1, h2⟩ := (hC a ha hla).1 hc
      rw [List.mem_map]
      refine ⟨value a - value start, List.mem_range.2 (by omega), ?_⟩
      exact (eq_iterate_of_value hs ha hla (by omega) (by omega)).symm
  · rw [List.pairwise_map]
    refine List.Pairwise.imp_of_mem ?_ (List.pairwise_lt_range N)
    intro i j hi hj hij
    rw [hval i (List.mem_range.1 hi), hval j (List.mem_range.1 hj)]
    omega

theorem div_eq_iff_range (v B P : Nat) (hp : 0 < P) :
    v / P = B ↔ B * P ≤ v ∧ v < B * P + P := by
  constructor
  · intro hB
    have h1 := Nat.div_add_mod v P
    have h2 := Nat.mod_lt v hp
    rw [hB, Nat.mul_comm] at h1
    omega
  · rintro ⟨h1, h2⟩
    exact Nat.div_eq_of_lt_le h1 (by rw [Nat.add_mul, Nat.one_mul]; exact h2)

/-- The quotient of a byte sequence's value by `2^h` is below `2^(8l - h)`. -/
theorem div_lt_pow {l h : Nat} {a : List Nat} (hl : a.length = l) (hb : IsBytes a)
    (hh : h ≤ 8 * l) : value a / 2 ^ h < 2 ^ (8 * l - h) := by
  have h1 := value_lt hb
  rw [hl, pow256] at h1
  rw [Nat.div_lt_iff_lt_mul (by positivity), ← pow_add]
  have : 8 * l - h + h = 8 * l := by omega
  rw [this]
  exact h1

/-- The scan of a network whose contained addresses are those with the
network's leading bits. -/
theorem scan_block {l n : Nat} {addr : List Nat} (net : IPNet) (hal : addr.length = l)
    (hab : IsBytes addr) (hn1 : 1 ≤ n) (hn : n ≤ 8 * l)
    (hC : ∀ a, IsBytes a → a.length = l →
      (Contains net a = true ↔ value a / 2 ^ (8 * l - n) = value addr / 2 ^ (8 * l - n))) :
    (∀ fuel, 2 ^ (8 * l - n) < fuel →
        scanLoop net fuel (andBytes addr (cidrMaskLoop l n))
          = some ((List.range (2 ^ (8 * l - n))).map
              (fun k => incrementIP^[k] (andBytes addr (cidrMaskLoop l n))))) ∧
      (∀ a, IsBytes a → a.length = l →
        (a ∈ (List.range (2 ^ (8 * l - n))).map
            (fun k => incrementIP^[k] (andBytes addr (cidrMaskLoop l n)))
          ↔ Contains net a = true)) ∧
      ((List.range (2 ^ (8 * l - n))).map
          (fun k => incrementIP^[k] (andBytes addr (cidrMaskLoop l n)))).Pairwise
        (fun x y => value x < value y) ∧
      ∀ k < 2 ^ (8 * l - n),
        value (incrementIP^[k] (andBytes addr (cidrMaskLoop l n)))
          = value addr / 2 ^ (8 * l - n) * 2 ^ (8 * l - n) + k := by
  have hbl : (andBytes addr (cidrMaskLoop l n)).length = l := base_length hal
  have hbb : IsBytes (andBytes addr (cidrMaskLoop l n)) := andBytes_isBytes _ hab
  have hbv := andBytes_cidr l n addr hal hab hn
  have hB := div_lt_pow hal hab (show 8 * l - n ≤ 8 * l by omega)
  have e : 8 * l - (8 * l - n) = n := by omega
  rw [e] at hB
  have hpow : (2 : Nat) ^ (8 * l) = 2 ^ n * 2 ^ (8 * l - n) := by
    rw [← pow_add]; congr 1; omega
  have hn2 : 2 ≤ 2 ^ n := by
    calc 2 = 2 ^ 1 := by norm_num
      _ ≤ 2 ^ n := Nat.pow_le_pow_right (by norm_num) hn1
  have hp : 0 < 2 ^ (8 * l - n) := by positivity
  generalize value addr / 2 ^ (8 * l - n) = B at hbv hB hC
  generalize 2 ^ (8 * l - n) = P at hbv hpow hp hC
  generalize 2 ^ n = Q at hB hpow hn2
  have hle : B * P + P ≤ Q * P := by
    have : (B + 1) * P ≤ Q * P := Nat.mul_le_mul_right P hB
    rw [Nat.add_mul, Nat.one_mul] at this
    exact this
  have h := scanLoop_interval net (andBytes addr (cidrMaskLoop l n)) P hbb
    (by rw [hbl, pow256, hbv, hpow]; exact hle)
    (by
      rw [hbl, pow256, hbv, hpow]
      by_cases hB0 : B = 0
      · subst hB0
        left
        rw [Nat.zero_mul, Nat.zero_add]
        nlinarith
      · right
        exact Nat.mul_pos (Nat.pos_of_ne_zero hB0) hp)
    (by
      intro a ha hla
      rw [hbl] at hla
      rw [hC a ha hla, hbv]
      exact div_eq_iff_range _ _ _ hp)
  rw [hbv, hbl] at h
  exact h

theorem head?_map_range {α : Type} (g : Nat → α) {P : Nat} (hp : 0 < P) :
    ((List.range P).map g).head? = some (g 0) := by
  obtain ⟨m, rfl⟩ : ∃ m, P = m + 1 := ⟨P - 1, by omega⟩
  rw [List.range_succ_eq_map]
  rfl

theorem getElem?_map_range {α : Type} (g : Nat → α) {P k : Nat} (hk : k < P) :
    ((List.range P).map g)[k]? = some (g k) := by
  rw [List.getElem?_map, List.getElem?_range hk]
  rfl

/-- The scan of a whole network. For every IPv4 range with prefix length at
least 1, and for every 16-byte range with prefix length at least 1 whose
network number is IPv4-mapped or that holds no IPv4-mapped address, the loop
stops (enough fuel gives the result) after exactly `2^(width - prefix)`
addresses: the first is the masked base, the `k`-th has the value of the base
plus `k` (so the last has all host bits set), the values are strictly
increasing, and the addresses visited are exactly the contained ones. -/
theorem scan_range (addr : IP) (n : Nat) (hb : IsBytes addr)
    (hl : addr.length = 4 ∨ addr.length = 16) (hn1 : 1 ≤ n) (hn : n ≤ 8 * addr.length)
    (hM : addr.length = 16 →
      (andBytes addr (cidrMaskLoop 16 n)).take 12 = v4InV6Prefix ∨
        ∀ a : IP, IsBytes a → a.length = 16 →
          value a / 2 ^ (128 - n) = value addr / 2 ^ (128 - n) → a.take 12 ≠ v4InV6Prefix) :
    ∃ ip0 net L, ParseCIDR addr n = some (ip0, net) ∧
      (∀ fuel, 2 ^ (8 * addr.length - n) < fuel → scan addr n fuel = some L) ∧
      L.length = 2 ^ (8 * addr.length - n) ∧
      L.head? = some (Mask ip0 net.Mask) ∧
      value (Mask ip0 net.Mask)
        = value addr / 2 ^ (8 * addr.length - n) * 2 ^ (8 * addr.length - n) ∧
      (∀ k < 2 ^ (8 * addr.length - n),
        ∃ a, L[k]? = some a ∧ value a = value (Mask ip0 net.Mask) + k) ∧
      L.Pairwise (fun x y => value x < value y) ∧
      (∀ a, IsBytes a → a.length = addr.length → (a ∈ L ↔ Contains net a = true)) := by
  have hp : ∀ l : Nat, 0 < 2 ^ (8 * l - n) := fun l => by positivity
  rcases hl with h4 | h16
  · have hn32 : n ≤ 32 := by omega
    obtain ⟨s1, s2, s3, s4⟩ := scan_block
      { IP := andBytes addr (cidrMaskLoop 4 n), Mask := cidrMaskLoop 4 n } h4 hb hn1 hn32
      (fun a ha hla => Contains_four_iff h4 hb hn32 hla ha)
    rw [h4]
    refine ⟨_, _, _, ParseCIDR_four h4 hn32, ?_, by simp, ?_, ?_, ?_, s3, s2⟩
    · intro fuel hf
      rw [scan_four h4 hn32]
      exact s1 fuel hf
    · rw [head?_map_range _ (hp 4), Mask_four h4 (cidrMaskLoop_length 4 n)]
      rfl
    · rw [Mask_four h4 (cidrMaskLoop_length 4 n)]
      exact andBytes_cidr 4 n addr h4 hb hn32
    · intro k hk
      refine ⟨_, getElem?_map_range _ hk, ?_⟩
      rw [Mask_four h4 (cidrMaskLoop_length 4 n), s4 k hk, andBytes_cidr 4 n addr h4 hb hn32]
  · have hn128 : n ≤ 128 := by omega
    have hBl := base_length (n := n) h16
    have hBb : IsBytes (andBytes addr (cidrMaskLoop 16 n)) := andBytes_isBytes _ hb
    obtain ⟨s1, s2, s3, s4⟩ := scan_block
      { IP := andBytes addr (cidrMaskLoop 16 n), Mask := cidrMaskLoop 16 n } h16 hb hn1 hn128
      (fun a ha hla => by
        rw [Contains_sixteen_iff h16 hb hn128 hla ha]
        constructor
        · intro h; exact h.1
        · intro h
          refine ⟨h, ?_⟩
          rcases hM h16 with hm | hm
          · exact Or.inl ((mapped_iff hBl hBb).1 hm)
          · exact Or.inr (fun hc => hm a ha hla h ((mapped_iff hla ha).2 hc)))
    rw [h16]
    refine ⟨_, _, _, ParseCIDR_sixteen h16 hn128, ?_, by simp, ?_, ?_, ?_, s3, s2⟩
    · intro fuel hf
      rw [scan_sixteen h16 hn128]
      exact s1 fuel hf
    · rw [head?_map_range _ (hp 16), Mask_sixteen h16 (cidrMaskLoop_length 16 n)]
      rfl
    · rw [Mask_sixteen h16 (cidrMaskLoop_length 16 n)]
      exact andBytes_cidr 16 n addr h16 hb hn128
    · intro k hk
      refine ⟨_, getElem?_map_range _ hk, ?_⟩
      rw [Mask_sixteen h16 (cidrMaskLoop_length 16 n), s4 k hk,
        andBytes_cidr 16 n addr h16 hb hn128]

theorem scan_range_example :
    ∃ ip0 net L, ParseCIDR [192, 168, 1, 77] 24 = some (ip0, net) ∧
      (∀ fuel, 2 ^ (8 * [192, 168, 1, 77].length - 24) < fuel →
        scan [192, 168, 1, 77] 24 fuel = some L) ∧
      L.length = 2 ^ (8 * [192, 168, 1, 77].length - 24) := by
  obtain ⟨ip0, net, L, h1, h2, h3, _⟩ :=
    scan_range [192, 168, 1, 77] 24 (by decide) (Or.inl rfl) (by decide) (by decide)
      (fun h => absurd h (by decide))
  exact ⟨ip0, net, L, h1, h2, h3⟩

/-! ## A single-address range in the run -/

/-- The network of a single-address range: the loop starts at the address, the
address is contained and its successor is not. -/
theorem single_net {a : IP} (hb : IsBytes a) (hl : a.length = 4 ∨ a.length = 16) :
    ∃ ip0 net, ParseCIDR a (8 * a.length) = some (ip0, net) ∧ Mask ip0 net.Mask = a ∧
      Contains net a = true ∧ Contains net (incrementIP a) = false := by
  rcases hl with h4 | h16
  · rw [h4]
    refine ⟨_, _, ParseCIDR_four h4 (le_refl _), ?_, ?_, ?_⟩
    · rw [Mask_four h4 (cidrMaskLoop_length 4 32)]
      exact andBytes_full h4 hb
    · exact (Contains_four_iff h4 hb (le_refl _) h4 hb).2 rfl
    · rw [Bool.eq_false_iff]
      intro hc
      have := (Contains_four_iff h4 hb (le_refl _) (by rw [incrementIP_length, h4])
        (incrementIP_isBytes hb)).1 hc
      simp only [Nat.sub_self, pow_zero, Nat.div_one] at this
      exact incrementIP_value_ne hb (by omega) this
  · rw [h16]
    refine ⟨_, _, ParseCIDR_sixteen h16 (le_refl _), ?_, ?_, ?_⟩
    · rw [Mask_sixteen h16 (cidrMaskLoop_length 16 128)]
      exact andBytes_full h16 hb
    · refine (Contains_sixteen_iff h16 hb (le_refl _) h16 hb).2 ⟨rfl, ?_⟩
      rw [andBytes_full h16 hb]
      exact Decidable.em _
    · rw [Bool.eq_false_iff]
      intro hc
      have := ((Contains_sixteen_iff h16 hb (le_refl _) (by rw [incrementIP_length, h16])
        (incrementIP_isBytes hb)).1 hc).1
      simp only [Nat.sub_self, pow_zero, Nat.div_one] at this
      exact incrementIP_value_ne hb (by omega) this

/-- With a free slot, the first three steps of `main` on a single-address range
(guard and `wg.Add`, send, `go`) start the goroutine for the address. -/
theorem main_starts_unit (env : Env) {f : Flags} {a : IP} (hb : IsBytes a)
    (hl : a.length = 4 ∨ a.length = 16) (ha : f.addr = a) (hbits : f.bits = 8 * a.length)
    (hc : 1 ≤ f.concurrent) :
    ∃ s0 t, init f = some s0 ∧
      runActions env f [Action.main, Action.main, Action.main] s0 = some t ∧
      t.units = [{ ip := a, pc := UnitPc.run 0, receives := 0 }] ∧
      t.sem = 1 ∧ t.wg = 1 := by
  obtain ⟨ip0, net, hp, hm, h1, _⟩ := single_net hb hl
  have hpos : 0 < f.concurrent := hc
  refine ⟨{ ipnet := net, main := MainPc.loopHead a, wg := 0, sem := 0, units := [],
            world := { trace := [], clock := 0 } },
    { ipnet := net, main := MainPc.loopHead (incrementIP a), wg := 1, sem := 1,
      units := [{ ip := a, pc := UnitPc.run 0, receives := 0 }],
      world := { trace := [], clock := 0 } }, ?_, ?_, rfl, rfl, rfl⟩
  · simp only [init, ha, hbits, hp, hm]
  · simp [runActions, step, stepMain, h1, hpos]

/-- When the scan loop enumerates finitely many addresses and the concurrency
limit is at least one, every state of a run has a schedule that leads from it
to the return of `wg.Wait()`. -/
theorem schedule_to_exit {env : Env} {f : Flags} {fuel : Nat} {L : List IP}
    (hc : 1 ≤ f.concurrent) (hscan : scan f.addr f.bits fuel = some L) :
    ∀ (n : Nat) (s : State), Reachable env f s → stepsLeft f L.length s ≤ n →
      ∃ acts t, runActions env f acts s = some t ∧ t.main = MainPc.exited := by
  intro n
  induction n with
  | zero =>
    intro s h hle
    by_cases hm : s.main = MainPc.exited
    · exact ⟨[], s, rfl, hm⟩
    · obtain ⟨a, t, ht⟩ := can_step hc h hm
      have := stepsLeft_decreases hscan h ht
      omega
  | succ n ih =>
    intro s h hle
    by_cases hm : s.main = MainPc.exited
    · exact ⟨[], s, rfl, hm⟩
    · obtain ⟨a, t, ht⟩ := can_step hc h hm
      have := stepsLeft_decreases hscan h ht
      obtain ⟨acts, t2, h2, h3⟩ := ih t (Reachable.step a h ht) (by omega)
      refine ⟨a :: acts, t2, ?_, h3⟩
      simp only [runActions, ht]
      exact h2

/-- Claim C4: for a single-address range (`a/32` for a 4-byte address, `a/128`
for a 16-byte address, the all-ones address included) the scan loop visits
exactly the address `a`. In every run at most one work unit is started, and
when the loop is left exactly one, for `a`. With a concurrency limit of at
least one (a valid configuration; with limit 0 the send blocks) the unit is
scheduled: the loop is entered, the first three steps of `main` start the
goroutine for `a`, the run is never stuck before `wg.Wait()` has returned,
every step brings it nearer to that, and from every state a schedule leads to
the return of `wg.Wait()`, where exactly the one unit for `a` has been started
and has finished. -/
theorem single_address_range (a : IP) (hb : IsBytes a) (hl : a.length = 4 ∨ a.length = 16) :
    (∀ fuel, 2 ≤ fuel → scan a (8 * a.length) fuel = some [a]) ∧
      ∀ (env : Env) (f : Flags), f.addr = a → f.bits = 8 * a.length →
        (∀ s, Reachable env f s →
          s.units.length ≤ 1 ∧
            ((s.main = MainPc.wait ∨ s.main = MainPc.exited) →
              s.units.map (fun u => u.ip) = [a])) ∧
        (1 ≤ f.concurrent →
          (∃ s0 t, init f = some s0 ∧
            runActions env f [Action.main, Action.main, Action.main] s0 = some t ∧
            t.units = [{ ip := a, pc := UnitPc.run 0, receives := 0 }] ∧
            t.sem = 1 ∧ t.wg = 1) ∧
          ∀ s, Reachable env f s →
            (s.main ≠ MainPc.exited → ∃ act t, step env f s act = some t) ∧
            (∀ act t, step env f s act = some t → stepsLeft f 1 t < stepsLeft f 1 s) ∧
            ∃ acts t, runActions env f acts s = some t ∧ t.main = MainPc.exited ∧
              t.units.map (fun u => u.ip) = [a] ∧
              ∀ u ∈ t.units, u.pc = UnitPc.finished ∧ u.receives = 1) := by
  have hscan : ∀ fuel, 2 ≤ fuel → scan a (8 * a.length) fuel = some [a] := by
    intro fuel hf
    rcases hl with h4 | h16
    · rw [h4]; exact scan_single_four hb h4 hf
    · rw [h16]; exact scan_single_sixteen hb h16 hf
  refine ⟨hscan, ?_⟩
  intro env f ha hbits
  have h2 : scan f.addr f.bits 2 = some [a] := by
    rw [ha, hbits]; exact hscan 2 (le_refl _)
  refine ⟨fun s h => units_of_scan h h2, ?_⟩
  intro hc
  refine ⟨main_starts_unit env hb hl ha hbits hc, ?_⟩
  intro s h
  refine ⟨fun hne => can_step hc h hne, fun act t hst => stepsLeft_decreases h2 h hst, ?_⟩
  obtain ⟨acts, t, hrun, hex⟩ := schedule_to_exit hc h2 _ s h (le_refl _)
  have ht := reachable_of_runActions acts h hrun
  obtain ⟨_, _, _, h4⟩ := balanced_of_reachable ht
  refine ⟨acts, t, hrun, hex, (units_of_scan ht h2).2 (Or.inr hex), ?_⟩
  intro u hu
  have hfin := h4 hex u hu
  refine ⟨hfin, ?_⟩
  have := receives_of_reachable ht u hu
  simpa [holdsSlot, hfin] using this

theorem single_address_range_witness :
    IsBytes [255, 255, 255, 255] ∧
      ([255, 255, 255, 255].length = 4 ∨ [255, 255, 255, 255].length = 16) ∧
      scan [255, 255, 255, 255] (8 * [255, 255, 255, 255].length) 2
        = some [[255, 255, 255, 255]] ∧
      (∃ s0 t, init singleFlags = some s0 ∧
        runActions answeringEnv singleFlags [Action.main, Action.main, Action.main] s0 = some t ∧
        t.units = [{ ip := [255, 255, 255, 255], pc := UnitPc.run 0, receives := 0 }] ∧
        t.sem = 1 ∧ t.wg = 1) ∧
      (∃ acts t, runActions answeringEnv singleFlags acts singleStart = some t ∧
        t.main = MainPc.exited ∧ t.units.map (fun u => u.ip) = [[255, 255, 255, 255]] ∧
        ∀ u ∈ t.units, u.pc = UnitPc.finished ∧ u.receives = 1) :=
  ⟨by decide, Or.inl rfl,
    (single_address_range [255, 255, 255, 255] (by decide) (Or.inl rfl)).1 2 (le_refl 2),
    (((single_address_range [255, 255, 255, 255] (by decide) (Or.inl rfl)).2
      answeringEnv singleFlags rfl rfl).2 (by decide)).1,
    ((((single_address_range [255, 255, 255, 255] (by decide) (Or.inl rfl)).2
      answeringEnv singleFlags rfl rfl).2 (by decide)).2 singleStart
        (Reachable.init (by decide))).2.2⟩

end DnsNetprobe
